import Mathlib

/-!
Verification of the chessops FEN/UCI notation layer.

Source files embedded here: src/fen.ts (FEN parsing and formatting) and
src/util.ts (squares, UCI moves, role characters; the repository holds two
generations of this utility file, both embedded).

Strings are embedded as List Char; TypeScript undefined becomes Option,
and the Result type from the source becomes Except.  Supporting data types
(Square, SquareSet, Board, Setup, Material, RemainingChecks, Move) are not
under src/ in this snapshot; they are modelled from the specification, as
marked on each definition.
-/

set_option maxRecDepth 10000

namespace Chessops

/-- Modelled from the spec: role of a piece, drawn from the six chess roles
listed in the data model. -/
inductive Role where
  | pawn | knight | bishop | rook | queen | king
deriving DecidableEq, Repr

/-- Modelled from the spec: the role list of types.ts in data-model order
(pawn, knight, bishop, rook, queen, king). -/
def ROLES : List Role := [.pawn, .knight, .bishop, .rook, .queen, .king]

/-- Modelled from the spec: side to move, white or black. -/
inductive Color where
  | white | black
deriving DecidableEq, Repr

/-- Modelled from the spec: the color list of types.ts, white first. -/
def COLORS : List Color := [.white, .black]

/-- Modelled from the spec: a piece is a role plus a color plus the
promoted flag (metadata for Crazyhouse; absent in TypeScript means false). -/
structure Piece where
  role : Role
  color : Color
  promoted : Bool
deriving DecidableEq, Repr

/-- Modelled from the spec: a square is an integer 0..63. -/
abbrev Square := Fin 64

/-- Modelled from the spec: a square set is a 64-bit membership set over
squares; embedded as a finite set of squares. -/
abbrev SquareSet := Finset Square

/-- Modelled from the spec: a board is an assignment of squares to pieces
(at most one piece per square). -/
abbrev Board := Square → Option Piece

/-- Board.empty of board.ts, modelled from the spec: no square is occupied. -/
def Board.emptyB : Board := fun _ => none

/-- board.get with a raw numeric square index: out-of-range reads are empty.
Modelled from the spec (board.ts is not under src/). -/
def bGet (b : Board) (n : Nat) : Option Piece :=
  if h : n < 64 then b ⟨n, h⟩ else none

/-- board.set with a raw numeric square index; out of range it is a no-op
(never reached from the parsers).  Modelled from the spec. -/
def bSet (b : Board) (n : Nat) (p : Piece) : Board :=
  fun sq => if sq.val = n then some p else b sq

/-- Modelled from the spec: per-color pocket, a count for each role. -/
structure MaterialSide where
  pawn : Nat
  knight : Nat
  bishop : Nat
  rook : Nat
  queen : Nat
  king : Nat
deriving DecidableEq, Repr

def MaterialSide.emptyM : MaterialSide := ⟨0, 0, 0, 0, 0, 0⟩

def MaterialSide.count (m : MaterialSide) : Role → Nat
  | .pawn => m.pawn
  | .knight => m.knight
  | .bishop => m.bishop
  | .rook => m.rook
  | .queen => m.queen
  | .king => m.king

def MaterialSide.inc (m : MaterialSide) : Role → MaterialSide
  | .pawn => { m with pawn := m.pawn + 1 }
  | .knight => { m with knight := m.knight + 1 }
  | .bishop => { m with bishop := m.bishop + 1 }
  | .rook => { m with rook := m.rook + 1 }
  | .queen => { m with queen := m.queen + 1 }
  | .king => { m with king := m.king + 1 }

/-- Modelled from the spec: both pockets (Crazyhouse material). -/
structure Material where
  white : MaterialSide
  black : MaterialSide
deriving DecidableEq, Repr

def Material.emptyMat : Material := ⟨MaterialSide.emptyM, MaterialSide.emptyM⟩

def Material.inc (m : Material) (c : Color) (r : Role) : Material :=
  match c with
  | .white => { m with white := m.white.inc r }
  | .black => { m with black := m.black.inc r }

/-- Modelled from the spec: remaining checks for Three-check, one counter
per color. -/
structure RemainingChecks where
  white : Nat
  black : Nat
deriving DecidableEq, Repr

/-- Modelled from the spec: the serializable, variant-agnostic state
snapshot. -/
structure Setup where
  board : Board
  pockets : Option Material
  turn : Color
  unmovedRooks : SquareSet
  epSquare : Option Square
  remainingChecks : Option RemainingChecks
  halfmoves : Nat
  fullmoves : Nat
deriving DecidableEq

/-- Modelled from the spec: a move is either a normal move (from, to,
optional promotion role) or a drop (role, to). -/
inductive Move where
  | normal (fromSq : Square) (toSq : Square) (promotion : Option Role)
  | drop (role : Role) (toSq : Square)
deriving DecidableEq, Repr

/-! ## util.ts (current generation) -/

/-- opposite of util.ts. -/
def opposite : Color → Color
  | .white => .black
  | .black => .white

/-- squareRank of util.ts: square >> 3. -/
def squareRank (square : Nat) : Nat := square >>> 3

/-- squareFile of util.ts: square & 0x7. -/
def squareFile (square : Nat) : Nat := square &&& 7

/-- roleToChar of util.ts. -/
def roleToChar : Role → Char
  | .pawn => 'p'
  | .knight => 'n'
  | .bishop => 'b'
  | .rook => 'r'
  | .queen => 'q'
  | .king => 'k'

/-- charToRole of util.ts (the Option-returning generation): a switch over
the twelve piece letters. -/
def charToRole (ch : Char) : Option Role :=
  if ch = 'P' ∨ ch = 'p' then some .pawn
  else if ch = 'N' ∨ ch = 'n' then some .knight
  else if ch = 'B' ∨ ch = 'b' then some .bishop
  else if ch = 'R' ∨ ch = 'r' then some .rook
  else if ch = 'Q' ∨ ch = 'q' then some .queen
  else if ch = 'K' ∨ ch = 'k' then some .king
  else none

/-- parseSquare of util.ts: a two-character name, file letter a..h
(codes 97..104) then rank digit 1..8 (codes 49..56). -/
def parseSquare (cs : List Char) : Option Square :=
  match cs with
  | [a, b] =>
    if h : 97 ≤ a.toNat ∧ a.toNat ≤ 104 ∧ 49 ≤ b.toNat ∧ b.toNat ≤ 56 then
      some ⟨a.toNat - 97 + 8 * (b.toNat - 49), by omega⟩
    else none
  | _ => none

def fileLetters : List Char := ['a', 'b', 'c', 'd', 'e', 'f', 'g', 'h']
def rankDigits : List Char := ['1', '2', '3', '4', '5', '6', '7', '8']

/-- makeSquare of util.ts: file letter then rank digit. -/
def makeSquare (s : Square) : List Char :=
  [fileLetters.getD (squareFile s.val) 'a', rankDigits.getD (squareRank s.val) '1']

/-- makeUci of util.ts. -/
def makeUci : Move → List Char
  | .drop r t => (roleToChar r).toUpper :: '@' :: makeSquare t
  | .normal f t p =>
    makeSquare f ++ makeSquare t ++ (match p with | some r => [roleToChar r] | none => [])

/-- parseUci of util.ts: a drop when the second character is an at sign and
the length is four, else a normal move of length four or five. -/
def parseUci : List Char → Option Move
  | [c0, c1, c2, c3] =>
    if c1 = '@' then
      match charToRole c0, parseSquare [c2, c3] with
      | some r, some t => some (.drop r t)
      | _, _ => none
    else
      match parseSquare [c0, c1], parseSquare [c2, c3] with
      | some f, some t => some (.normal f t none)
      | _, _ => none
  | [c0, c1, c2, c3, c4] =>
    match charToRole c4 with
    | none => none
    | some pr =>
      match parseSquare [c0, c1], parseSquare [c2, c3] with
      | some f, some t => some (.normal f t (some pr))
      | _, _ => none
  | _ => none

/-! ## util.ts (older generation, Result-based) -/

/-- opposite of the older util.ts generation. -/
def oppositeR : Color → Color
  | .white => .black
  | .black => .white

/-- charToRole of the older util.ts generation, returning a Result whose
error carries no payload. -/
def charToRoleR (c : Char) : Except Unit Role :=
  if c = 'p' ∨ c = 'P' then .ok .pawn
  else if c = 'n' ∨ c = 'N' then .ok .knight
  else if c = 'b' ∨ c = 'B' then .ok .bishop
  else if c = 'r' ∨ c = 'R' then .ok .rook
  else if c = 'q' ∨ c = 'Q' then .ok .queen
  else if c = 'k' ∨ c = 'K' then .ok .king
  else .error ()

/-- nthIndexOf of the older util.ts generation: the position of the
(n+1)-th occurrence of the needle, none when there are not that many.
occurrenceIdxs lists the positions of all occurrences in order. -/
def occurrenceIdxs (l : List Char) (c : Char) : List Nat :=
  match l with
  | [] => []
  | x :: rest =>
    if x = c then 0 :: (occurrenceIdxs rest c).map (· + 1)
    else (occurrenceIdxs rest c).map (· + 1)

def nthIndexOf (l : List Char) (c : Char) (n : Nat) : Option Nat :=
  (occurrenceIdxs l c).get? n

/-! ## fen.ts: error type and small parsers -/

/-- InvalidFen of fen.ts: the typed FEN error kinds. -/
inductive InvalidFen where
  | fen | board | pockets | turn | castling | epSquare | remainingChecks
  | halfmoves | fullmoves
deriving DecidableEq, Repr

instance exceptDecEq {ε α : Type} [DecidableEq ε] [DecidableEq α] :
    DecidableEq (Except ε α)
  | .ok a, .ok b => if h : a = b then .isTrue (by rw [h]) else .isFalse (by simp [h])
  | .ok _, .error _ => .isFalse (by simp)
  | .error _, .ok _ => .isFalse (by simp)
  | .error e, .error f => if h : e = f then .isTrue (by rw [h]) else .isFalse (by simp [h])

def isDigitChar (c : Char) : Bool := 48 ≤ c.toNat && c.toNat ≤ 57

def digitsVal (s : List Char) : Nat := s.foldl (fun a c => 10 * a + (c.toNat - 48)) 0

/-- parseSmallUint of fen.ts: one to four decimal digits. -/
def parseSmallUint (s : List Char) : Option Nat :=
  if 1 ≤ s.length ∧ s.length ≤ 4 ∧ s.all isDigitChar then some (digitsVal s) else none

/-- charToPiece of fen.ts: lower-case letters are black, upper-case white. -/
def charToPiece (ch : Char) : Option Piece :=
  let lower := ch.toLower
  match charToRole lower with
  | none => none
  | some role => some ⟨role, if lower = ch then .black else .white, false⟩

/-- A character is a truthy empty-square step of parseBoardFen exactly when
parseInt yields a nonzero number, i.e. for the digits 1..9. -/
def isStep (c : Char) : Bool := 49 ≤ c.toNat && c.toNat ≤ 57

def stepVal (c : Char) : Nat := c.toNat - 48

/-- The loop of parseBoardFen of fen.ts: characters are consumed one at a
time; a slash at file 8 moves one rank down, a digit 1..9 skips files, any
other character must be a piece letter, optionally followed by a tilde.
The first argument is fuel (the tilde lookahead consumes two characters at
once); it is always at least the length of the remaining input. -/
def parseBoardAuxF : Nat → List Char → Int → Nat → Board → Except InvalidFen Board
  | _, [], rank, file, board =>
    if rank ≠ 0 ∨ file ≠ 8 then .error .board else .ok board
  | 0, _ :: _, _, _, _ => .error .board
  | fuel + 1, c :: rest, rank, file, board =>
    if c = '/' ∧ file = 8 then parseBoardAuxF fuel rest (rank - 1) 0 board
    else if isStep c then parseBoardAuxF fuel rest rank (file + stepVal c) board
    else if 8 ≤ file ∨ rank < 0 then .error .board
    else
      if charToPiece c = none then .error .board
      else
        let piece := (charToPiece c).getD ⟨.pawn, .white, false⟩
        if rest.head? = some '~' then
          parseBoardAuxF fuel rest.tail rank (file + 1)
            (bSet board (file + rank.toNat * 8) { piece with promoted := true })
        else
          parseBoardAuxF fuel rest rank (file + 1)
            (bSet board (file + rank.toNat * 8) piece)

def parseBoardAux (cs : List Char) (rank : Int) (file : Nat) (board : Board) :
    Except InvalidFen Board :=
  parseBoardAuxF cs.length cs rank file board

/-- parseBoardFen of fen.ts. -/
def parseBoardFen (boardPart : List Char) : Except InvalidFen Board :=
  parseBoardAux boardPart 7 0 Board.emptyB

/-- parsePockets of fen.ts: count one piece letter per character. -/
def parsePocketsAux : List Char → Material → Except InvalidFen Material
  | [], m => .ok m
  | c :: rest, m =>
    match charToPiece c with
    | none => .error .pockets
    | some p => parsePocketsAux rest (m.inc p.color p.role)

def parsePockets (pocketPart : List Char) : Except InvalidFen Material :=
  parsePocketsAux pocketPart Material.emptyMat

def isWhiteCastlingChar (c : Char) : Bool :=
  (['K', 'Q', 'A', 'B', 'C', 'D', 'E', 'F', 'G', 'H'] : List Char).contains c

def isBlackCastlingChar (c : Char) : Bool :=
  (['k', 'q', 'a', 'b', 'c', 'd', 'e', 'f', 'g', 'h'] : List Char).contains c

/-- The regular expression of parseCastlingFen: up to two white letters
followed by up to two black letters. -/
def castlingRegexOk (cs : List Char) : Bool :=
  let w := cs.takeWhile isWhiteCastlingChar
  let r := cs.drop w.length
  decide (w.length ≤ 2) && decide (r.length ≤ 2) && r.all isBlackCastlingChar

/-- The inner file scan of parseCastlingFen: walk the given files on the
back rank, stop at the first piece of the right color that is a king
(no rook gained) or a rook (that square is gained). -/
def scanFiles (b : Board) (color : Color) (rank : Nat) : List Nat → Option Square
  | [] => none
  | f :: fs =>
    match bGet b (f + 8 * rank) with
    | none => scanFiles b color rank fs
    | some p =>
      if p.color = color ∧ p.role = .king then none
      else if p.color = color ∧ p.role = .rook then
        if h : f + 8 * rank < 64 then some ⟨f + 8 * rank, h⟩ else none
      else scanFiles b color rank fs

/-- The color, rank and file list that one character of parseCastlingFen
scans: lower-case means black; q scans files a..h, k scans h..a, a letter
names a single file. -/
def castlingCharSpec (c : Char) : Color × Nat × List Nat :=
  let lower := c.toLower
  let color : Color := if c = lower then .black else .white
  let rank : Nat := if color = .white then 0 else 7
  let files : List Nat :=
    if lower = 'q' then [0, 1, 2, 3, 4, 5, 6, 7]
    else if lower = 'k' then [7, 6, 5, 4, 3, 2, 1, 0]
    else [lower.toNat - 97]
  (color, rank, files)

/-- One character of parseCastlingFen: scan the character's files on its
back rank. -/
def castlingCharSquare (b : Board) (c : Char) : Option Square :=
  scanFiles b (castlingCharSpec c).1 (castlingCharSpec c).2.1 (castlingCharSpec c).2.2

/-- parseCastlingFen of fen.ts. -/
def parseCastlingFen (board : Board) (castlingPart : List Char) : Except InvalidFen SquareSet :=
  if castlingPart = ['-'] then .ok ∅
  else if ¬ castlingRegexOk castlingPart then .error .castling
  else
    .ok (castlingPart.foldl
      (fun acc c =>
        match castlingCharSquare board c with
        | some sq => insert sq acc
        | none => acc) ∅)

/-- String.prototype.split with a one-character separator. -/
def splitOnChar (sep : Char) : List Char → List (List Char)
  | [] => [[]]
  | c :: cs =>
    if c = sep then [] :: splitOnChar sep cs
    else
      match splitOnChar sep cs with
      | [] => [[c]]
      | p :: ps => (c :: p) :: ps

/-- parseRemainingChecks of fen.ts: either +w+b (a lichess-style counter,
stored as 3-w and 3-b) or w+b, each side at most 3. -/
def parseRemainingChecks (part : List Char) : Except InvalidFen RemainingChecks :=
  match splitOnChar '+' part with
  | [p0, p1, p2] =>
    if p0 = [] then
      match parseSmallUint p1, parseSmallUint p2 with
      | some w, some bk =>
        if w ≤ 3 ∧ bk ≤ 3 then .ok ⟨3 - w, 3 - bk⟩ else .error .remainingChecks
      | _, _ => .error .remainingChecks
    else .error .remainingChecks
  | [p0, p1] =>
    match parseSmallUint p0, parseSmallUint p1 with
    | some w, some bk =>
      if w ≤ 3 ∧ bk ≤ 3 then .ok ⟨w, bk⟩ else .error .remainingChecks
    | _, _ => .error .remainingChecks
  | _ => .error .remainingChecks

/-- The turn field of parseFen: absent means white. -/
def turnOf : Option (List Char) → Except InvalidFen Color
  | none => .ok .white
  | some t =>
    if t = ['w'] then .ok .white
    else if t = ['b'] then .ok .black
    else .error .turn

def idxOfChar (l : List Char) (c : Char) : Option Nat := (occurrenceIdxs l c).head?

/-- The castling field of parseFen: absent means the empty set. -/
def rooksROf (board : Board) : Option (List Char) → Except InvalidFen SquareSet
  | none => .ok ∅
  | some cp => parseCastlingFen board cp

/-- The en passant field of parseFen: absent or a dash means none. -/
def epOf : Option (List Char) → Except InvalidFen (Option Square)
  | none => .ok none
  | some ep =>
    if ep ≠ ['-'] then
      match parseSquare ep with
      | none => .error .epSquare
      | some sq => .ok (some sq)
    else .ok none

/-- The halfmove slot of parseFen: when the token contains a plus it is an
early remaining-checks field, and the halfmove token is the next one.
Returns (early checks, halfmove token, remaining tokens). -/
def parseFenTrip (parts4 : List (List Char)) :
    Option (Except InvalidFen RemainingChecks) × Option (List Char) × List (List Char) :=
  match parts4.head? with
  | some h0 =>
    if h0.contains '+' then
      (some (parseRemainingChecks h0), parts4.tail.head?, parts4.tail.tail)
    else (none, some h0, parts4.tail)
  | none => (none, none, parts4.tail)

/-- A clock field of parseFen: absent takes the default, present must be a
small unsigned integer. -/
def smallUintOr (dflt : Nat) (err : InvalidFen) : Option (List Char) → Except InvalidFen Nat
  | none => .ok dflt
  | some s =>
    match parseSmallUint s with
    | none => .error err
    | some n => .ok n

/-- The last stage of parseFen: reject a duplicated remaining-checks field,
reject leftover tokens, then surface pocket, castling and checks errors in
that order and assemble the Setup (fullmoves clamped to at least 1). -/
def parseFenFinish (board : Board) (turn : Color) (epSquare : Option Square)
    (halfmoves fullmoves : Nat) (pocketsR : Except InvalidFen (Option Material))
    (unmovedRooksR : Except InvalidFen SquareSet) (rcPart : Option (List Char))
    (early : Option (Except InvalidFen RemainingChecks))
    (parts8 : List (List Char)) : Except InvalidFen Setup :=
  let rcR : Except InvalidFen (Option RemainingChecks) :=
    match rcPart with
    | some rp => (parseRemainingChecks rp).map some
    | none =>
      match early with
      | some e => e.map some
      | none => .ok none
  if rcPart.isSome ∧ early.isSome then .error .remainingChecks
  else if parts8 ≠ [] then .error .fen
  else
    match pocketsR with
    | .error e => .error e
    | .ok pockets =>
      match unmovedRooksR with
      | .error e => .error e
      | .ok unmovedRooks =>
        match rcR with
        | .error e => .error e
        | .ok remainingChecks =>
          .ok { board := board, pockets := pockets, turn := turn,
                unmovedRooks := unmovedRooks, epSquare := epSquare,
                remainingChecks := remainingChecks,
                halfmoves := halfmoves, fullmoves := max 1 fullmoves }

/-- The halfmove, fullmove and remaining-checks stages of parseFen, given
the already-split triple of the halfmove slot. -/
def parseFenFrom4core (board : Board) (turn : Color) (epSquare : Option Square)
    (pocketsR : Except InvalidFen (Option Material))
    (unmovedRooksR : Except InvalidFen SquareSet)
    (early : Option (Except InvalidFen RemainingChecks))
    (hmPart : Option (List Char)) (parts6 : List (List Char)) :
    Except InvalidFen Setup :=
  match smallUintOr 0 .halfmoves hmPart with
  | .error e => .error e
  | .ok halfmoves =>
    match smallUintOr 1 .fullmoves parts6.head? with
    | .error e => .error e
    | .ok fullmoves =>
      parseFenFinish board turn epSquare halfmoves fullmoves pocketsR unmovedRooksR
        parts6.tail.head? early parts6.tail.tail

/-- The halfmove, fullmove and remaining-checks stages of parseFen, from
the fifth field on. -/
def parseFenFrom4 (board : Board) (turn : Color) (epSquare : Option Square)
    (pocketsR : Except InvalidFen (Option Material))
    (unmovedRooksR : Except InvalidFen SquareSet)
    (parts4 : List (List Char)) : Except InvalidFen Setup :=
  parseFenFrom4core board turn epSquare pocketsR unmovedRooksR
    (parseFenTrip parts4).1 (parseFenTrip parts4).2.1 (parseFenTrip parts4).2.2

/-- The tail of parseFen after the board part has been cut off: turn,
castling, en passant, halfmove (or early remaining checks), fullmove,
remaining checks, with the source's error precedence. -/
def parseFenParts (boardR : Except InvalidFen Board)
    (pocketsR : Except InvalidFen (Option Material))
    (parts1 : List (List Char)) : Except InvalidFen Setup :=
  match turnOf parts1.head? with
  | .error e => .error e
  | .ok turn =>
    match boardR with
    | .error e => .error e
    | .ok board =>
      match epOf parts1.tail.tail.head? with
      | .error e => .error e
      | .ok epSquare =>
        parseFenFrom4 board turn epSquare pocketsR (rooksROf board parts1.tail.head?)
          parts1.tail.tail.tail

/-- parseFen of fen.ts. -/
def parseFen (fen : List Char) : Except InvalidFen Setup :=
  let parts := splitOnChar ' ' fen
  let boardPart := parts.headD []
  let parts1 := parts.tail
  if boardPart.getLast? = some ']' then
    match idxOfChar boardPart '[' with
    | none => .error .fen
    | some pocketStart =>
      parseFenParts (parseBoardFen (boardPart.take pocketStart))
        ((parsePockets ((boardPart.drop (pocketStart + 1)).take
          (boardPart.length - 1 - pocketStart - 1))).map some) parts1
  else
    match nthIndexOf boardPart '/' 7 with
    | none => parseFenParts (parseBoardFen boardPart) (.ok none) parts1
    | some ps =>
      parseFenParts (parseBoardFen (boardPart.take ps))
        ((parsePockets (boardPart.drop (ps + 1))).map some) parts1

/-! ## fen.ts: formatting -/

/-- FenOpts of fen.ts; all three options default to false/absent. -/
structure FenOpts where
  promoted : Bool := false
  shredder : Bool := false
  epd : Bool := false

def digitChar (n : Nat) : Char := Char.ofNat (48 + n)

def flushDigit (e : Nat) : List Char := if e = 0 then [] else [digitChar e]

/-- makePiece of fen.ts: upper-case for white, a tilde appended for a
promoted piece when the promoted option is set. -/
def makePiece (p : Piece) (promotedOpt : Bool) : List Char :=
  (if p.color = .white then (roleToChar p.role).toUpper else roleToChar p.role)
    :: (if promotedOpt && p.promoted then ['~'] else [])

/-- The inner file loop of makeBoardFen: n files remain, the current file
is f, e empty squares are pending. -/
def emitFiles (b : Board) (promotedOpt : Bool) (rank : Nat) : Nat → Nat → Nat → List Char
  | 0, _, e => flushDigit e
  | n + 1, f, e =>
    match bGet b (f + rank * 8) with
    | none => emitFiles b promotedOpt rank n (f + 1) (e + 1)
    | some p => flushDigit e ++ makePiece p promotedOpt ++ emitFiles b promotedOpt rank n (f + 1) 0

/-- The descending rank list r, r-1, ..., 0. -/
def countdown : Nat → List Nat
  | 0 => [0]
  | n + 1 => (n + 1) :: countdown n

/-- makeBoardFen of fen.ts: ranks 8 down to 1, slash-separated. -/
def makeBoardFen (b : Board) (promotedOpt : Bool) : List Char :=
  List.intercalate ['/'] ((countdown 7).map (fun r => emitFiles b promotedOpt r 8 0 0))

/-- strRepeat of util.ts. -/
def strRepeat (c : Char) (n : Nat) : List Char := List.replicate n c

/-- makePocket of fen.ts: each role's character repeated by its count, in
role order. -/
def makePocketSide (m : MaterialSide) : List Char :=
  (ROLES.map (fun r => strRepeat (roleToChar r) (m.count r))).flatten

/-- makePockets of fen.ts: the white pocket upper-cased, then the black
pocket. -/
def makePockets (m : Material) : List Char :=
  (makePocketSide m.white).map Char.toUpper ++ makePocketSide m.black

def backrankOf : Color → Nat
  | .white => 0
  | .black => 7

def isColorRook (b : Board) (color : Color) (s : Square) : Bool :=
  match b s with
  | some p => p.color = color && p.role = .rook
  | none => false

def isColorKing (b : Board) (color : Color) (s : Square) : Bool :=
  match b s with
  | some p => p.color = color && p.role = .king
  | none => false

/-- board.pieces(color, rook) ∩ backrank of makeCastlingFen, modelled from
the spec (board.ts is not under src/): the same-colored rooks on that
color's home rank. -/
def candidates (b : Board) (color : Color) : Finset Square :=
  Finset.univ.filter (fun s => isColorRook b color s = true ∧ squareRank s.val = backrankOf color)

/-- board.kingOf, modelled from the spec (board.ts is not under src/): the
first square holding a king of the color, none when there is none. -/
def kingOf (b : Board) (color : Color) : Option Square :=
  (Finset.univ.filter (fun s => isColorKing b color s = true)).min

/-- Descending iteration over a square set (SquareSet.reversed of
squareSet.ts), modelled from the spec: squares in decreasing order. -/
def sortDesc (s : Finset Square) : List Square :=
  ((List.finRange 64).filter (fun sq => decide (sq ∈ s))).reverse

def fileLettersUpper : List Char := ['A', 'B', 'C', 'D', 'E', 'F', 'G', 'H']

/-- The character makeCastlingFen writes for one unmoved rook: Q/q for the
leftmost candidate rook left of the king, K/k for the rightmost candidate
rook right of the king, otherwise the rook's file letter. -/
def charForRook (b : Board) (color : Color) (shredder : Bool) (rook : Square) : Char :=
  let cand := candidates b color
  let fallback :=
    (if color = .white then fileLettersUpper else fileLetters).getD (rook.val &&& 7) 'A'
  if shredder then fallback
  else
    match kingOf b color with
    | some k =>
      if cand.min = some rook ∧ rook < k then (if color = .white then 'Q' else 'q')
      else if cand.max = some rook ∧ k < rook then (if color = .white then 'K' else 'k')
      else fallback
    | none => fallback

/-- makeCastlingFen of fen.ts. -/
def makeCastlingFen (b : Board) (unmovedRooks : SquareSet) (shredder : Bool) : List Char :=
  let cs := (COLORS.map (fun color =>
    (sortDesc (unmovedRooks ∩ candidates b color)).map (charForRook b color shredder))).flatten
  if cs = [] then ['-'] else cs

/-- Decimal printing of a number (String interpolation in makeFen); the
first argument is fuel, always at least the number itself. -/
def natToCharsAux : Nat → Nat → List Char
  | 0, n => [digitChar n]
  | fuel + 1, n =>
    if n < 10 then [digitChar n]
    else natToCharsAux fuel (n / 10) ++ [digitChar (n % 10)]

def natToChars (n : Nat) : List Char := natToCharsAux n n

/-- makeRemainingChecks of fen.ts. -/
def makeRemainingChecks (checks : RemainingChecks) : List Char :=
  natToChars checks.white ++ '+' :: natToChars checks.black

def turnChar : Color → Char
  | .white => 'w'
  | .black => 'b'

/-- makeFen of fen.ts: space-joined fields; the remaining-checks field
comes before the clocks, and the clocks are dropped in EPD mode. -/
def makeFen (setup : Setup) (opts : FenOpts) : List Char :=
  List.intercalate [' ']
    ([makeBoardFen setup.board opts.promoted ++
        (match setup.pockets with
         | some m => '[' :: (makePockets m ++ [']'])
         | none => []),
      [turnChar setup.turn],
      makeCastlingFen setup.board setup.unmovedRooks opts.shredder,
      (match setup.epSquare with
       | some sq => makeSquare sq
       | none => ['-'])]
     ++ (match setup.remainingChecks with
         | some c => [makeRemainingChecks c]
         | none => [])
     ++ (if opts.epd then []
         else [natToChars setup.halfmoves, natToChars setup.fullmoves]))

/-! ## The board-grammar of claim C6, stated from the claim text -/

/-- Stated from the claim (not from the code): the number of files covered
by one rank segment, where a digit 1..9 covers that many empty files and a
piece character (optionally followed by a tilde) covers one file; none when
a character is neither.  The first argument is fuel, at least the length
of the input. -/
def itemsSumF : Nat → List Char → Option Nat
  | _, [] => some 0
  | 0, _ :: _ => none
  | fuel + 1, c :: rest =>
    if isStep c then (itemsSumF fuel rest).map (· + stepVal c)
    else if charToPiece c = none then none
    else if rest.head? = some '~' then (itemsSumF fuel rest.tail).map (· + 1)
    else (itemsSumF fuel rest).map (· + 1)

def itemsSum (cs : List Char) : Option Nat := itemsSumF cs.length cs

/-- Stated from the claim: a board FEN encodes ranks 8 down to 1 separated
by slashes, the piece characters and empty-square digit runs covering
exactly 8 files in each of exactly 8 ranks. -/
def validBoardFen (cs : List Char) : Bool :=
  let segs := splitOnChar '/' cs
  segs.length = 8 && segs.all (fun seg => itemsSum seg = some 8)

/-! ## Concrete inputs used by witnesses, and shared predicates -/

def emptyBoardOnly : List Char :=
  ['8', '/', '8', '/', '8', '/', '8', '/', '8', '/', '8', '/', '8', '/', '8']

def badBoardOnly : List Char := ['x']

/-- The Setup produced when every field after the board (or after the
turn) is omitted: the documented defaults. -/
def defaultSetup (b : Board) (turn : Color) : Setup :=
  { board := b, pockets := none, turn := turn, unmovedRooks := ∅, epSquare := none,
    remainingChecks := none, halfmoves := 0, fullmoves := 1 }

/-- The characters that can appear in a well-formed board part: slashes,
digit steps, piece letters and the promotion tilde. -/
def isBoardChar (ch : Char) : Bool :=
  ch = '/' || isStep ch || (charToPiece ch).isSome || ch = '~'


def rookAtHome (b : Board) (sq : Square) : Prop :=
  ∃ p, b sq = some p ∧ p.role = .rook ∧
    ((p.color = .white ∧ squareRank sq.val = 0) ∨ (p.color = .black ∧ squareRank sq.val = 7))

def rookA1Board : Board := fun sq => if sq.val = 0 then some ⟨.rook, .white, false⟩ else none

def sq0 : Square := ⟨0, by decide⟩

def fenFullmovesZero : List Char :=
  ['8', '/', '8', '/', '8', '/', '8', '/', '8', '/', '8', '/', '8', '/', '8',
   ' ', 'w', ' ', '-', ' ', '-', ' ', '0', ' ', '0']

def emptySetupFull1 : Setup :=
  { board := Board.emptyB, pockets := none, turn := .white, unmovedRooks := ∅,
    epSquare := none, remainingChecks := none, halfmoves := 0, fullmoves := 1 }

def fenConflictChecks : List Char :=
  ['8', '/', '8', '/', '8', '/', '8', '/', '8', '/', '8', '/', '8', '/', '8',
   ' ', 'w', ' ', '-', ' ', '-', ' ', '3', '+', '2', ' ', '0', ' ', '1',
   ' ', '1', '+', '1']

/-! ## C1: helper definitions for the round trip, and the validity model -/

/-- The piece actually stored by the board parser for a plain piece letter:
the letter's role and color, with the promoted flag cleared. -/
def dePromote (p : Piece) : Piece := ⟨p.role, p.color, false⟩

/-- The board updates performed while parsing the formatted rank r of
board b back in: the occupied squares of b among files f, f+1, ... of that
rank are written (de-promoted) into board0, n files remaining. -/
def writeFiles (b : Board) (r : Nat) : Nat → Nat → Board → Board
  | 0, _, board0 => board0
  | n + 1, f, board0 =>
    match bGet b (f + r * 8) with
    | none => writeFiles b r n (f + 1) board0
    | some p => writeFiles b r n (f + 1) (bSet board0 (f + r * 8) (dePromote p))

/-- The board updates performed while parsing the formatted ranks r, r-1,
..., 0 of board b back in. -/
def writeRanks (b : Board) : Nat → Board → Board
  | 0, board0 => writeFiles b 0 8 0 board0
  | r + 1, board0 => writeRanks b r (writeFiles b (r + 1) 8 0 board0)

/-- k successive increments of one pocket counter. -/
def incKC (col : Color) (rl : Role) : Nat → Material → Material
  | 0, m => m
  | k + 1, m => incKC col rl k (m.inc col rl)

/-- Modelled from the spec: s lies strictly between a and t on a common
rank, file or diagonal (used for sliding-piece attacks; for squares a, t
that are not mutually aligned no square is between them on the segment).
All three arguments are raw square indices. -/
def betweenB (a t s : Nat) : Bool :=
  let fa : Int := (a % 8 : Nat)
  let ra : Int := (a / 8 : Nat)
  let ft : Int := (t % 8 : Nat)
  let rt : Int := (t / 8 : Nat)
  let fs : Int := (s % 8 : Nat)
  let rs : Int := (s / 8 : Nat)
  decide (s ≠ a) && decide (s ≠ t) &&
    decide ((ft - fa) * (rs - ra) = (rt - ra) * (fs - fa)) &&
    decide (min fa ft ≤ fs) && decide (fs ≤ max fa ft) &&
    decide (min ra rt ≤ rs) && decide (rs ≤ max ra rt)

/-- Modelled from the spec: every square strictly between a and t is
empty, so a sliding piece on a has a clear line to t. -/
def clearBetween (b : Board) (a t : Square) : Bool :=
  decide (∀ s : Square, betweenB a.val t.val s.val = true → b s = none)

/-- Modelled from the spec (the attack tables of attacks.ts, not under
src/): whether the piece p standing on square a attacks square t on board
b; sliders additionally need a clear line. -/
def attacksFrom (b : Board) (a : Square) (p : Piece) (t : Square) : Bool :=
  let df : Int := ((t.val % 8 : Nat) : Int) - ((a.val % 8 : Nat) : Int)
  let dr : Int := ((t.val / 8 : Nat) : Int) - ((a.val / 8 : Nat) : Int)
  match p.role with
  | .pawn => decide (df.natAbs = 1) && decide (dr = if p.color = .white then 1 else -1)
  | .knight => decide ((df.natAbs = 1 ∧ dr.natAbs = 2) ∨ (df.natAbs = 2 ∧ dr.natAbs = 1))
  | .bishop => decide (df.natAbs = dr.natAbs ∧ df ≠ 0) && clearBetween b a t
  | .rook => decide ((df = 0 ∨ dr = 0) ∧ ¬(df = 0 ∧ dr = 0)) && clearBetween b a t
  | .queen =>
    (decide (df.natAbs = dr.natAbs ∧ df ≠ 0) ||
      decide ((df = 0 ∨ dr = 0) ∧ ¬(df = 0 ∧ dr = 0))) && clearBetween b a t
  | .king => decide (max df.natAbs dr.natAbs = 1)

/-- Modelled from the spec: square a holds a piece of color atk attacking
square t. -/
def isAttacker (b : Board) (atk : Color) (t : Square) (a : Square) : Bool :=
  match b a with
  | some p => decide (p.color = atk) && attacksFrom b a p t
  | none => false

/-- Modelled from the spec: the attackers of color atk of square t. -/
def attackersOf (b : Board) (atk : Color) (t : Square) : Finset Square :=
  Finset.univ.filter (fun a => isAttacker b atk t a = true)

/-- The number of kings of one color on the board. -/
def kingCount (b : Board) (color : Color) : Nat :=
  (Finset.univ.filter (fun sq => isColorKing b color sq = true)).card

/-- The sliding roles (relevant to the impossible-double-check rule). -/
def sliderRole : Role → Bool
  | .bishop => true
  | .rook => true
  | .queen => true
  | _ => false

/-- Modelled from the spec: validation step 4, the en passant square (if
any) sits on the rank matching the turn, is empty like the double-step
origin behind it, and has an opponent pawn immediately in front of it. -/
def epOkB (s : Setup) : Bool :=
  match s.epSquare with
  | none => true
  | some ep =>
    match s.turn with
    | .white =>
      decide (ep.val / 8 = 5) && decide (bGet s.board ep.val = none) &&
        decide (bGet s.board (ep.val + 8) = none) &&
        ((bGet s.board (ep.val - 8)).any
          (fun p => decide (p.role = .pawn) && decide (p.color = .black)))
    | .black =>
      decide (ep.val / 8 = 2) && decide (bGet s.board ep.val = none) &&
        decide (bGet s.board (ep.val - 8) = none) &&
        ((bGet s.board (ep.val + 8)).any
          (fun p => decide (p.role = .pawn) && decide (p.color = .white)))

/-- Modelled from the spec: setup validation steps 1-7 for the standard
game (exactly one king per color; no pawn on its own back rank; the
unmovedRooks invariant; en passant consistency; the side not to move not
in check; at most two checkers and no two simultaneous sliding checks, a
conservative reading of the impossible-check rule; bounded pocket and
remaining-check counts). -/
def ValidSetupB (s : Setup) : Bool :=
  decide (kingCount s.board .white = 1) && decide (kingCount s.board .black = 1) &&
    decide (∀ sq : Square, ((s.board sq).all
      (fun p => !(decide (p.role = .pawn) && decide (sq.val / 8 = backrankOf p.color)))) = true) &&
    decide (∀ sq ∈ s.unmovedRooks, ((s.board sq).any
      (fun p => decide (p.role = .rook) && decide (sq.val / 8 = backrankOf p.color))) = true) &&
    epOkB s &&
    (match kingOf s.board (opposite s.turn) with
     | some k => decide (attackersOf s.board s.turn k = ∅)
     | none => false) &&
    (match kingOf s.board s.turn with
     | some k =>
       decide ((attackersOf s.board (opposite s.turn) k).card ≤ 2) &&
         decide (∀ a1 ∈ attackersOf s.board (opposite s.turn) k,
           ∀ a2 ∈ attackersOf s.board (opposite s.turn) k, a1 ≠ a2 →
             ¬(((s.board a1).any (fun p => sliderRole p.role)) = true ∧
               ((s.board a2).any (fun p => sliderRole p.role)) = true))
     | none => false) &&
    (match s.pockets with
     | none => true
     | some m => decide (∀ r ∈ ROLES, m.white.count r + m.black.count r ≤ 16)) &&
    (match s.remainingChecks with
     | none => true
     | some c => decide (c.white ≤ 3) && decide (c.black ≤ 3))

/-- The piece order of the home back rank. -/
def backrankRole : Nat → Role
  | 0 => .rook
  | 1 => .knight
  | 2 => .bishop
  | 3 => .queen
  | 4 => .king
  | 5 => .bishop
  | 6 => .knight
  | _ => .rook

/-- The standard starting board. -/
def initialBoard : Board := fun sq =>
  if sq.val < 8 then some ⟨backrankRole sq.val, .white, false⟩
  else if sq.val < 16 then some ⟨.pawn, .white, false⟩
  else if 48 ≤ sq.val ∧ sq.val < 56 then some ⟨.pawn, .black, false⟩
  else if 56 ≤ sq.val then some ⟨backrankRole (sq.val - 56), .black, false⟩
  else none

/-- The starting position with the white queen marked as promoted (a legal
Crazyhouse state): a valid Setup whose board is not recovered by the
default-option round trip, because makeFen omits the promotion tilde
unless the promoted option is set. -/
def exSetup : Setup :=
  { board := bSet initialBoard 3 ⟨.queen, .white, true⟩,
    pockets := none, turn := .white,
    unmovedRooks := {(0 : Square), 7, 56, 63},
    epSquare := none, remainingChecks := none, halfmoves := 0, fullmoves := 1 }

/-- The bracketed pocket suffix of the board field of makeFen. -/
def pocketSuffix : Option Material → List Char
  | some m => '[' :: (makePockets m ++ [']'])
  | none => []

/-- The en passant field of makeFen. -/
def epToken : Option Square → List Char
  | some sq => makeSquare sq
  | none => ['-']

/-- The optional remaining-checks field of makeFen. -/
def checksFields : Option RemainingChecks → List (List Char)
  | some c => [makeRemainingChecks c]
  | none => []

/-! ## Shared helper lemmas about squares and roles -/

theorem parseSquare_makeSquare (s : Square) : parseSquare (makeSquare s) = some s := by
  revert s; decide

theorem makeSquare_snd_ne_at (s : Square) : (makeSquare s).getD 1 ' ' ≠ '@' := by
  revert s; decide

theorem charToRole_roleToChar (r : Role) : charToRole (roleToChar r) = some r := by
  cases r <;> decide

theorem charToRole_roleToChar_upper (r : Role) :
    charToRole (roleToChar r).toUpper = some r := by
  cases r <;> decide

theorem exceptSides {α : Type} (x : Except InvalidFen α) :
    (∃ v, x = .ok v) ∨ (∃ e, x = .error e) := by
  cases x with
  | ok v => exact Or.inl ⟨v, rfl⟩
  | error e => exact Or.inr ⟨e, rfl⟩

theorem squareRank_eq_div (n : Nat) : squareRank n = n / 8 := by
  simp [squareRank, Nat.shiftRight_eq_div_pow]

/-- Squares gained by the inner scan of parseCastlingFen hold a rook of the
scanned color, at file f on the scanned rank for some listed file f. -/
theorem scanFiles_mem (b : Board) (color : Color) (rank : Nat) :
    ∀ (fs : List Nat) (sq : Square), scanFiles b color rank fs = some sq →
      ∃ p, b sq = some p ∧ p.color = color ∧ p.role = .rook ∧
        ∃ f ∈ fs, sq.val = f + 8 * rank := by
  intro fs
  induction fs with
  | nil => intro sq h; simp [scanFiles] at h
  | cons f fs ih =>
    intro sq h
    rw [scanFiles] at h
    rcases hg : bGet b (f + 8 * rank) with _ | p
    · simp only [hg] at h
      obtain ⟨p, h1, h2, h3, g, hgmem, hsq⟩ := ih sq h
      exact ⟨p, h1, h2, h3, g, List.mem_cons_of_mem _ hgmem, hsq⟩
    · simp only [hg] at h
      by_cases hk : p.color = color ∧ p.role = .king
      · rw [if_pos hk] at h
        simp at h
      · rw [if_neg hk] at h
        by_cases hr : p.color = color ∧ p.role = .rook
        · rw [if_pos hr] at h
          by_cases h64 : f + 8 * rank < 64
          · rw [dif_pos h64] at h
            obtain rfl : (⟨f + 8 * rank, h64⟩ : Square) = sq := by
              simpa using h
            refine ⟨p, ?_, hr.1, hr.2, f, List.mem_cons_self _ _, rfl⟩
            rw [bGet, dif_pos h64] at hg
            exact hg
          · rw [dif_neg h64] at h
            simp at h
        · rw [if_neg hr] at h
          obtain ⟨p2, h1, h2, h3, g, hgmem, hsq⟩ := ih sq h
          exact ⟨p2, h1, h2, h3, g, List.mem_cons_of_mem _ hgmem, hsq⟩

theorem castling_white_case (b : Board) (fs : List Nat) (hfs : ∀ f ∈ fs, f ≤ 7)
    (sq : Square) (h : scanFiles b .white 0 fs = some sq) : rookAtHome b sq := by
  obtain ⟨p, h1, h2, h3, f, hfmem, hsq⟩ := scanFiles_mem b .white 0 fs sq h
  refine ⟨p, h1, h3, Or.inl ⟨h2, ?_⟩⟩
  have hf7 := hfs f hfmem
  rw [squareRank_eq_div]
  omega

theorem castling_black_case (b : Board) (fs : List Nat) (hfs : ∀ f ∈ fs, f ≤ 7)
    (sq : Square) (h : scanFiles b .black 7 fs = some sq) : rookAtHome b sq := by
  obtain ⟨p, h1, h2, h3, f, hfmem, hsq⟩ := scanFiles_mem b .black 7 fs sq h
  refine ⟨p, h1, h3, Or.inr ⟨h2, ?_⟩⟩
  have hf7 := hfs f hfmem
  rw [squareRank_eq_div]
  omega

theorem castlingCharSpec_white (c : Char) (h : isWhiteCastlingChar c = true) :
    (castlingCharSpec c).1 = .white ∧ (castlingCharSpec c).2.1 = 0 ∧
      ∀ f ∈ (castlingCharSpec c).2.2, f ≤ 7 := by
  have hc10 : c = 'K' ∨ c = 'Q' ∨ c = 'A' ∨ c = 'B' ∨ c = 'C' ∨ c = 'D' ∨ c = 'E' ∨
      c = 'F' ∨ c = 'G' ∨ c = 'H' := by
    simp only [isWhiteCastlingChar, List.contains_cons, List.contains_nil,
      Bool.or_eq_true, beq_iff_eq] at h
    tauto
  rcases hc10 with rfl | rfl | rfl | rfl | rfl | rfl | rfl | rfl | rfl | rfl <;> decide

theorem castlingCharSpec_black (c : Char) (h : isBlackCastlingChar c = true) :
    (castlingCharSpec c).1 = .black ∧ (castlingCharSpec c).2.1 = 7 ∧
      ∀ f ∈ (castlingCharSpec c).2.2, f ≤ 7 := by
  have hc10 : c = 'k' ∨ c = 'q' ∨ c = 'a' ∨ c = 'b' ∨ c = 'c' ∨ c = 'd' ∨ c = 'e' ∨
      c = 'f' ∨ c = 'g' ∨ c = 'h' := by
    simp only [isBlackCastlingChar, List.contains_cons, List.contains_nil,
      Bool.or_eq_true, beq_iff_eq] at h
    tauto
  rcases hc10 with rfl | rfl | rfl | rfl | rfl | rfl | rfl | rfl | rfl | rfl <;> decide

theorem castlingCharSquare_home (b : Board) (c : Char)
    (hc : isWhiteCastlingChar c = true ∨ isBlackCastlingChar c = true)
    (sq : Square) (h : castlingCharSquare b c = some sq) : rookAtHome b sq := by
  rw [castlingCharSquare] at h
  rcases hc with hw | hb
  · obtain ⟨h1, h2, h3⟩ := castlingCharSpec_white c hw
    rw [h1, h2] at h
    exact castling_white_case b _ h3 sq h
  · obtain ⟨h1, h2, h3⟩ := castlingCharSpec_black c hb
    rw [h1, h2] at h
    exact castling_black_case b _ h3 sq h

theorem drop_takeWhile_length (p : Char → Bool) :
    ∀ l : List Char, l.drop (l.takeWhile p).length = l.dropWhile p := by
  intro l
  induction l with
  | nil => rfl
  | cons c l ih =>
    by_cases hp : p c
    · simp [List.takeWhile, List.dropWhile, hp, ih]
    · simp [List.takeWhile, List.dropWhile, hp]

theorem regexOk_classes (cs : List Char) (h : castlingRegexOk cs = true) :
    ∀ c ∈ cs, isWhiteCastlingChar c = true ∨ isBlackCastlingChar c = true := by
  intro c hmem
  rw [castlingRegexOk] at h
  simp only [Bool.and_eq_true, decide_eq_true_eq] at h
  obtain ⟨⟨-, -⟩, hall⟩ := h
  rw [drop_takeWhile_length] at hall
  have hmem2 : c ∈ cs.takeWhile isWhiteCastlingChar ++ cs.dropWhile isWhiteCastlingChar := by
    rw [List.takeWhile_append_dropWhile]
    exact hmem
  rcases List.mem_append.mp hmem2 with hm | hm
  · exact Or.inl (List.mem_takeWhile_imp hm)
  · exact Or.inr (List.all_eq_true.mp hall c hm)

theorem castlingFold_mem (b : Board) :
    ∀ (cs : List Char) (acc : SquareSet),
      (∀ c ∈ cs, isWhiteCastlingChar c = true ∨ isBlackCastlingChar c = true) →
      (∀ sq ∈ acc, rookAtHome b sq) →
      ∀ sq ∈ cs.foldl
        (fun acc c =>
          match castlingCharSquare b c with
          | some s => insert s acc
          | none => acc) acc,
        rookAtHome b sq := by
  intro cs
  induction cs with
  | nil => intro acc _ hacc sq hsq; exact hacc sq hsq
  | cons c cs ih =>
    intro acc hclass hacc sq hsq
    rw [List.foldl_cons] at hsq
    refine ih _ (fun d hd => hclass d (List.mem_cons_of_mem _ hd)) ?_ sq hsq
    intro t ht
    rcases hg : castlingCharSquare b c with _ | s
    · rw [hg] at ht
      exact hacc t ht
    · rw [hg] at ht
      rcases Finset.mem_insert.mp ht with rfl | ht2
      · exact castlingCharSquare_home b c (hclass c (List.mem_cons_self _ _)) t hg
      · exact hacc t ht2

/-- C4: every square in a successfully parsed castling-rights set holds a
rook of the matching color on that color's home rank (rank index 0 for
white, 7 for black) of the given board. -/
theorem C4_castling_invariant (board : Board) (cp : List Char) (set : SquareSet)
    (h : parseCastlingFen board cp = .ok set) :
    ∀ sq ∈ set, ∃ p, board sq = some p ∧ p.role = .rook ∧
      ((p.color = .white ∧ squareRank sq.val = 0) ∨
       (p.color = .black ∧ squareRank sq.val = 7)) := by
  intro sq hsq
  rw [parseCastlingFen] at h
  by_cases hdash : cp = ['-']
  · rw [if_pos hdash] at h
    obtain rfl : (∅ : SquareSet) = set := by simpa using h
    simp at hsq
  · rw [if_neg hdash] at h
    by_cases hre : castlingRegexOk cp
    · rw [if_neg (by simpa using hre)] at h
      obtain rfl : cp.foldl
          (fun acc c =>
            match castlingCharSquare board c with
            | some s => insert s acc
            | none => acc) ∅ = set := by simpa using h
      exact castlingFold_mem board cp ∅ (regexOk_classes cp hre)
        (fun t ht => absurd ht (Finset.not_mem_empty t)) sq hsq
    · rw [if_pos (by simpa using hre)] at h
      simp at h

/-- Witness for C4 at a concrete board and castling string: a board with a
single white rook on a1, castling string Q, yields the set containing a1,
and a1 indeed holds a white rook on rank 1. -/
theorem C4_castling_invariant_witness :
    ∃ p, rookA1Board sq0 = some p ∧ p.role = .rook ∧
      ((p.color = .white ∧ squareRank sq0.val = 0) ∨
       (p.color = .black ∧ squareRank sq0.val = 7)) :=
  C4_castling_invariant rookA1Board ['Q'] {sq0} (by decide) sq0 (by decide)

/-! ## C5: square coordinates and square-name round trip -/

/-- C5: for every square index s in 0..63, squareFile s is s mod 8 and
squareRank s is s div 8, and parseSquare after makeSquare is the identity. -/
theorem C5_square_coords_and_name_roundtrip :
    ∀ s : Square, squareFile s.val = s.val % 8 ∧ squareRank s.val = s.val / 8 ∧
      parseSquare (makeSquare s) = some s := by
  decide

/-! ## C2: UCI move round trip -/

/-- C2: for every Move (normal with optional promotion, or drop),
parseUci after makeUci returns the same move; both are pure functions of
the move alone. -/
theorem C2_uci_roundtrip : ∀ m : Move, parseUci (makeUci m) = some m := by
  intro m
  cases m with
  | drop r t =>
    obtain ⟨a, b, hab⟩ : ∃ a b, makeSquare t = [a, b] := ⟨_, _, rfl⟩
    have ht := parseSquare_makeSquare t
    rw [hab] at ht
    simp [makeUci, hab, parseUci, ht, charToRole_roleToChar_upper]
  | normal f t p =>
    obtain ⟨a1, a2, ha⟩ : ∃ a b, makeSquare f = [a, b] := ⟨_, _, rfl⟩
    obtain ⟨b1, b2, hb⟩ : ∃ a b, makeSquare t = [a, b] := ⟨_, _, rfl⟩
    have hf := parseSquare_makeSquare f
    have ht := parseSquare_makeSquare t
    rw [ha] at hf
    rw [hb] at ht
    have ha2 : a2 ≠ '@' := by
      have h2 := makeSquare_snd_ne_at f
      rw [ha] at h2
      simpa using h2
    cases p with
    | none => simp [makeUci, ha, hb, parseUci, ha2, hf, ht]
    | some pr => simp [makeUci, ha, hb, parseUci, hf, ht, charToRole_roleToChar pr]

/-! ## C10: the two utility generations agree -/

/-- C10: the Result-returning charToRole of the older utility file agrees
pointwise with the Option-returning charToRole (ok exactly where some, err
exactly where undefined), and the two opposite implementations agree. -/
theorem C10_util_generations_agree :
    (∀ c : Char,
      charToRoleR c = match charToRole c with | some r => .ok r | none => .error ()) ∧
    (∀ color : Color, oppositeR color = opposite color) := by
  constructor
  · intro c
    by_cases h1 : c = 'p'
    · subst h1; rfl
    by_cases h2 : c = 'P'
    · subst h2; rfl
    by_cases h3 : c = 'n'
    · subst h3; rfl
    by_cases h4 : c = 'N'
    · subst h4; rfl
    by_cases h5 : c = 'b'
    · subst h5; rfl
    by_cases h6 : c = 'B'
    · subst h6; rfl
    by_cases h7 : c = 'r'
    · subst h7; rfl
    by_cases h8 : c = 'R'
    · subst h8; rfl
    by_cases h9 : c = 'q'
    · subst h9; rfl
    by_cases h10 : c = 'Q'
    · subst h10; rfl
    by_cases h11 : c = 'k'
    · subst h11; rfl
    by_cases h12 : c = 'K'
    · subst h12; rfl
    simp [charToRoleR, charToRole, h1, h2, h3, h4, h5, h6, h7, h8, h9, h10, h11, h12]
  · intro color
    cases color <;> rfl

/-! ## C3: the parsers are total and return typed results -/

/-- C3: on every input string, parseFen and its sub-parsers terminate with
an explicit result: either ok with a value or err with a typed FEN error;
no input raises an exception. -/
theorem C3_parsers_total_typed_results :
    ∀ s : List Char,
      ((∃ v, parseFen s = .ok v) ∨ (∃ e, parseFen s = .error e)) ∧
      ((∃ v, parseBoardFen s = .ok v) ∨ (∃ e, parseBoardFen s = .error e)) ∧
      ((∃ v, parsePockets s = .ok v) ∨ (∃ e, parsePockets s = .error e)) ∧
      (∀ b : Board,
        (∃ v, parseCastlingFen b s = .ok v) ∨ (∃ e, parseCastlingFen b s = .error e)) ∧
      ((∃ v, parseRemainingChecks s = .ok v) ∨ (∃ e, parseRemainingChecks s = .error e)) :=
  fun _ =>
    ⟨exceptSides _, exceptSides _, exceptSides _, fun _ => exceptSides _, exceptSides _⟩

/-! ## C8: fullmoves is clamped to at least 1 -/

theorem parseFenFinish_ok_fullmoves (board : Board) (turn : Color)
    (epSquare : Option Square) (halfmoves fullmoves : Nat)
    (pocketsR : Except InvalidFen (Option Material))
    (unmovedRooksR : Except InvalidFen SquareSet) (rcPart : Option (List Char))
    (early : Option (Except InvalidFen RemainingChecks)) (parts8 : List (List Char))
    (st : Setup)
    (h : parseFenFinish board turn epSquare halfmoves fullmoves pocketsR unmovedRooksR
      rcPart early parts8 = .ok st) : 1 ≤ st.fullmoves := by
  simp only [parseFenFinish] at h
  repeat any_goals split at h
  all_goals simp_all
  all_goals subst h
  all_goals exact le_max_left _ _

theorem parseFenFrom4core_ok_fullmoves (board : Board) (turn : Color)
    (epSquare : Option Square) (pocketsR : Except InvalidFen (Option Material))
    (unmovedRooksR : Except InvalidFen SquareSet)
    (early : Option (Except InvalidFen RemainingChecks))
    (hmPart : Option (List Char)) (parts6 : List (List Char)) (st : Setup)
    (h : parseFenFrom4core board turn epSquare pocketsR unmovedRooksR early hmPart
      parts6 = .ok st) : 1 ≤ st.fullmoves := by
  rw [parseFenFrom4core] at h
  repeat any_goals split at h
  all_goals first
    | exact parseFenFinish_ok_fullmoves _ _ _ _ _ _ _ _ _ _ _ h
    | simp_all

theorem parseFenFrom4_ok_fullmoves (board : Board) (turn : Color)
    (epSquare : Option Square) (pocketsR : Except InvalidFen (Option Material))
    (unmovedRooksR : Except InvalidFen SquareSet) (parts4 : List (List Char))
    (st : Setup)
    (h : parseFenFrom4 board turn epSquare pocketsR unmovedRooksR parts4 = .ok st) :
    1 ≤ st.fullmoves :=
  parseFenFrom4core_ok_fullmoves _ _ _ _ _ _ _ _ _ h

theorem parseFenParts_ok_fullmoves (boardR : Except InvalidFen Board)
    (pocketsR : Except InvalidFen (Option Material)) (parts1 : List (List Char))
    (st : Setup) (h : parseFenParts boardR pocketsR parts1 = .ok st) :
    1 ≤ st.fullmoves := by
  rw [parseFenParts] at h
  repeat any_goals split at h
  all_goals first
    | exact parseFenFrom4_ok_fullmoves _ _ _ _ _ _ _ h
    | simp_all

/-- C8: whenever parseFen succeeds, the resulting fullmoves is at least 1;
a fullmove field of 0 is accepted and clamped to 1 rather than rejected. -/
theorem C8_fullmoves_clamped_at_least_one :
    ∀ (fen : List Char) (st : Setup), parseFen fen = .ok st → 1 ≤ st.fullmoves := by
  intro fen st h
  simp only [parseFen] at h
  split at h
  · split at h
    · simp at h
    · exact parseFenParts_ok_fullmoves _ _ _ _ h
  · split at h
    · exact parseFenParts_ok_fullmoves _ _ _ _ h
    · exact parseFenParts_ok_fullmoves _ _ _ _ h

/-- Witness for C8: the empty board with fullmove field 0 parses
successfully, and the parsed fullmoves is (clamped to) 1. -/
theorem C8_fullmoves_witness :
    parseFen fenFullmovesZero = .ok emptySetupFull1 ∧ 1 ≤ emptySetupFull1.fullmoves := by
  have hEval : parseFen fenFullmovesZero = .ok emptySetupFull1 := by decide
  exact ⟨hEval, C8_fullmoves_clamped_at_least_one fenFullmovesZero emptySetupFull1 hEval⟩

/-! ## C7: conflicting early and late remaining-checks fields are rejected -/

theorem parseFenFinish_both_error (board : Board) (turn : Color)
    (epSquare : Option Square) (halfmoves fullmoves : Nat)
    (pocketsR : Except InvalidFen (Option Material))
    (unmovedRooksR : Except InvalidFen SquareSet) (rcPart : Option (List Char))
    (early : Option (Except InvalidFen RemainingChecks)) (parts8 : List (List Char))
    (hrc : rcPart.isSome = true) (he : early.isSome = true) :
    parseFenFinish board turn epSquare halfmoves fullmoves pocketsR unmovedRooksR
      rcPart early parts8 = .error .remainingChecks := by
  simp only [parseFenFinish]
  rw [if_pos]
  exact ⟨hrc, he⟩

theorem parseFenFrom4_both (board : Board) (turn : Color) (epSquare : Option Square)
    (pocketsR : Except InvalidFen (Option Material))
    (unmovedRooksR : Except InvalidFen SquareSet) (p4 p5 p6 p7 : List Char)
    (rest : List (List Char)) (hplus : p4.contains '+' = true) :
    ∃ e, parseFenFrom4 board turn epSquare pocketsR unmovedRooksR
      (p4 :: p5 :: p6 :: p7 :: rest) = .error e := by
  have htrip : parseFenTrip (p4 :: p5 :: p6 :: p7 :: rest) =
      (some (parseRemainingChecks p4), some p5, p6 :: p7 :: rest) := by
    simp only [parseFenTrip, List.head?_cons, List.tail_cons, List.tail, hplus, if_true]
  rw [parseFenFrom4, htrip]
  show ∃ e, parseFenFrom4core board turn epSquare pocketsR unmovedRooksR
    (some (parseRemainingChecks p4)) (some p5) (p6 :: p7 :: rest) = .error e
  rw [parseFenFrom4core]
  cases hh : smallUintOr 0 InvalidFen.halfmoves (some p5) with
  | error e => exact ⟨e, rfl⟩
  | ok hm =>
    cases hf : smallUintOr 1 InvalidFen.fullmoves (p6 :: p7 :: rest).head? with
    | error e => exact ⟨e, rfl⟩
    | ok fm =>
      exact ⟨.remainingChecks, parseFenFinish_both_error _ _ _ _ _ _ _ _ _ _ (by simp) rfl⟩

theorem parseFenParts_both (boardR : Except InvalidFen Board)
    (pocketsR : Except InvalidFen (Option Material)) (p1 p2 p3 p4 p5 p6 p7 : List Char)
    (rest : List (List Char)) (hplus : p4.contains '+' = true) :
    ∃ e, parseFenParts boardR pocketsR
      (p1 :: p2 :: p3 :: p4 :: p5 :: p6 :: p7 :: rest) = .error e := by
  rw [parseFenParts]
  simp only [List.head?_cons, List.tail_cons]
  cases ht : turnOf (some p1) with
  | error e => exact ⟨e, rfl⟩
  | ok turn =>
    cases boardR with
    | error e => exact ⟨e, rfl⟩
    | ok board =>
      cases hep : epOf (some p3) with
      | error e => exact ⟨e, rfl⟩
      | ok epSq => exact parseFenFrom4_both _ _ _ _ _ _ _ _ _ _ hplus

/-- C7: a FEN whose fifth field is a plus-bearing remaining-checks token
and which also carries a separate later remaining-checks field is rejected
with an error (in particular when the two counts conflict), rather than
one of the two counts being chosen. -/
theorem C7_conflicting_checks_rejected :
    ∀ (fen : List Char) (p0 p1 p2 p3 p4 p5 p6 p7 : List Char)
      (rest : List (List Char)) (r1 r2 : RemainingChecks),
      splitOnChar ' ' fen = p0 :: p1 :: p2 :: p3 :: p4 :: p5 :: p6 :: p7 :: rest →
      p4.contains '+' = true →
      parseRemainingChecks p4 = .ok r1 →
      parseRemainingChecks p7 = .ok r2 →
      r1 ≠ r2 →
      ∃ e, parseFen fen = .error e := by
  intro fen p0 p1 p2 p3 p4 p5 p6 p7 rest r1 r2 hsplit hplus _ _ _
  simp only [parseFen]
  rw [hsplit]
  simp only [List.headD_cons, List.tail_cons]
  split
  · split
    · exact ⟨.fen, rfl⟩
    · exact parseFenParts_both _ _ _ _ _ _ _ _ _ _ hplus
  · split
    · exact parseFenParts_both _ _ _ _ _ _ _ _ _ _ hplus
    · exact parseFenParts_both _ _ _ _ _ _ _ _ _ _ hplus

/-- Witness for C7 at a concrete FEN with an early checks field 3+2 and a
conflicting late field 1+1. -/
theorem C7_conflicting_checks_witness : ∃ e, parseFen fenConflictChecks = .error e :=
  C7_conflicting_checks_rejected fenConflictChecks
    ['8', '/', '8', '/', '8', '/', '8', '/', '8', '/', '8', '/', '8', '/', '8']
    ['w'] ['-'] ['-'] ['3', '+', '2'] ['0'] ['1'] ['1', '+', '1'] []
    ⟨3, 2⟩ ⟨1, 1⟩ (by decide) (by decide) (by decide) (by decide) (by decide)

/-! ## Unfolding equations for the board parser -/

theorem parseBoardAuxF_irrel :
    ∀ (f1 : Nat) (cs : List Char) (f2 : Nat) (rank : Int) (file : Nat) (b : Board),
      cs.length ≤ f1 → cs.length ≤ f2 →
      parseBoardAuxF f1 cs rank file b = parseBoardAuxF f2 cs rank file b := by
  intro f1
  induction f1 with
  | zero =>
    intro cs f2 rank file b h1 h2
    cases cs with
    | nil => cases f2 <;> rfl
    | cons c rest => simp at h1
  | succ f1 ih =>
    intro cs f2 rank file b h1 h2
    cases cs with
    | nil => cases f2 <;> rfl
    | cons c rest =>
      cases f2 with
      | zero => simp at h2
      | succ f2 =>
        have hr1 : rest.length ≤ f1 := by simp only [List.length_cons] at h1; omega
        have hr2 : rest.length ≤ f2 := by simp only [List.length_cons] at h2; omega
        simp only [parseBoardAuxF]
        by_cases hc : c = '/' ∧ file = 8
        · rw [if_pos hc, if_pos hc]
          exact ih rest f2 _ _ _ hr1 hr2
        · rw [if_neg hc, if_neg hc]
          by_cases hs : isStep c = true
          · rw [if_pos hs, if_pos hs]
            exact ih rest f2 _ _ _ hr1 hr2
          · rw [if_neg hs, if_neg hs]
            by_cases hfr : 8 ≤ file ∨ rank < 0
            · rw [if_pos hfr, if_pos hfr]
            · rw [if_neg hfr, if_neg hfr]
              by_cases hcp : charToPiece c = none
              · rw [if_pos hcp, if_pos hcp]
              · rw [if_neg hcp, if_neg hcp]
                have htl1 : rest.tail.length ≤ f1 :=
                  le_trans (by simp [List.length_tail]) hr1
                have htl2 : rest.tail.length ≤ f2 :=
                  le_trans (by simp [List.length_tail]) hr2
                by_cases ht : rest.head? = some '~'
                · rw [if_pos ht, if_pos ht]
                  exact ih _ f2 _ _ _ htl1 htl2
                · rw [if_neg ht, if_neg ht]
                  exact ih _ f2 _ _ _ hr1 hr2

theorem parseBoardAux_nil (rank : Int) (file : Nat) (b : Board) :
    parseBoardAux [] rank file b =
      if rank ≠ 0 ∨ file ≠ 8 then .error .board else .ok b := rfl

theorem parseBoardAux_slash (rest : List Char) (rank : Int) (b : Board) :
    parseBoardAux ('/' :: rest) rank 8 b = parseBoardAux rest (rank - 1) 0 b := by
  show parseBoardAuxF (rest.length + 1) ('/' :: rest) rank 8 b = _
  rw [parseBoardAuxF]
  rw [if_pos (by simp)]
  rfl

theorem isStep_ne_slash (c : Char) (h : isStep c = true) : c ≠ '/' := by
  intro hc
  subst hc
  simp [isStep] at h

theorem parseBoardAux_step (c : Char) (rest : List Char) (rank : Int) (file : Nat)
    (b : Board) (hs : isStep c = true) :
    parseBoardAux (c :: rest) rank file b =
      parseBoardAux rest rank (file + stepVal c) b := by
  show parseBoardAuxF (rest.length + 1) (c :: rest) rank file b = _
  rw [parseBoardAuxF]
  rw [if_neg (by intro hc; exact isStep_ne_slash c hs hc.1), if_pos hs]
  rfl

theorem parseBoardAux_piece_err (c : Char) (rest : List Char) (rank : Int) (file : Nat)
    (b : Board) (hns : ¬(c = '/' ∧ file = 8)) (hs : isStep c = false)
    (hbad : 8 ≤ file ∨ rank < 0) :
    parseBoardAux (c :: rest) rank file b = .error .board := by
  show parseBoardAuxF (rest.length + 1) (c :: rest) rank file b = _
  rw [parseBoardAuxF]
  rw [if_neg hns, if_neg (by simp [hs]), if_pos hbad]

theorem parseBoardAux_no_piece (c : Char) (rest : List Char) (rank : Int) (file : Nat)
    (b : Board) (hns : ¬(c = '/' ∧ file = 8)) (hs : isStep c = false)
    (hok : ¬(8 ≤ file ∨ rank < 0)) (hcp : charToPiece c = none) :
    parseBoardAux (c :: rest) rank file b = .error .board := by
  show parseBoardAuxF (rest.length + 1) (c :: rest) rank file b = _
  rw [parseBoardAuxF]
  rw [if_neg hns, if_neg (by simp [hs]), if_neg hok, if_pos hcp]

theorem parseBoardAux_piece_tilde (c : Char) (rest2 : List Char) (rank : Int)
    (file : Nat) (b : Board) (piece : Piece) (hns : ¬(c = '/' ∧ file = 8))
    (hs : isStep c = false) (hok : ¬(8 ≤ file ∨ rank < 0))
    (hcp : charToPiece c = some piece) :
    parseBoardAux (c :: '~' :: rest2) rank file b =
      parseBoardAux rest2 rank (file + 1)
        (bSet b (file + rank.toNat * 8) { piece with promoted := true }) := by
  show parseBoardAuxF (rest2.length + 1 + 1) (c :: '~' :: rest2) rank file b = _
  rw [parseBoardAuxF]
  rw [if_neg hns, if_neg (by simp [hs]), if_neg hok, if_neg (by simp [hcp]),
    if_pos (by simp : (('~' :: rest2).head? = some '~'))]
  simp only [hcp, Option.getD_some]
  exact parseBoardAuxF_irrel _ _ _ _ _ _ (by simp) (le_refl _)

theorem parseBoardAux_piece_plain (c : Char) (rest : List Char) (rank : Int)
    (file : Nat) (b : Board) (piece : Piece) (hns : ¬(c = '/' ∧ file = 8))
    (hs : isStep c = false) (hok : ¬(8 ≤ file ∨ rank < 0))
    (hcp : charToPiece c = some piece) (hnt : rest.head? ≠ some '~') :
    parseBoardAux (c :: rest) rank file b =
      parseBoardAux rest rank (file + 1) (bSet b (file + rank.toNat * 8) piece) := by
  show parseBoardAuxF (rest.length + 1) (c :: rest) rank file b = _
  rw [parseBoardAuxF]
  rw [if_neg hns, if_neg (by simp [hs]), if_neg hok, if_neg (by simp [hcp]), if_neg hnt]
  simp only [hcp, Option.getD_some]
  rfl

/-! ## C6: characterisation of parseBoardFen -/

theorem itemsSumF_irrel :
    ∀ (f1 : Nat) (cs : List Char) (f2 : Nat), cs.length ≤ f1 → cs.length ≤ f2 →
      itemsSumF f1 cs = itemsSumF f2 cs := by
  intro f1
  induction f1 with
  | zero =>
    intro cs f2 h1 h2
    cases cs with
    | nil => cases f2 <;> rfl
    | cons c rest => simp at h1
  | succ f1 ih =>
    intro cs f2 h1 h2
    cases cs with
    | nil => cases f2 <;> rfl
    | cons c rest =>
      cases f2 with
      | zero => simp at h2
      | succ f2 =>
        have hr1 : rest.length ≤ f1 := by simp only [List.length_cons] at h1; omega
        have hr2 : rest.length ≤ f2 := by simp only [List.length_cons] at h2; omega
        have htl1 : rest.tail.length ≤ f1 := le_trans (by simp [List.length_tail]) hr1
        have htl2 : rest.tail.length ≤ f2 := le_trans (by simp [List.length_tail]) hr2
        simp only [itemsSumF]
        by_cases hs : isStep c = true
        · rw [if_pos hs, if_pos hs, ih rest f2 hr1 hr2]
        · rw [if_neg hs, if_neg hs]
          by_cases hcp : charToPiece c = none
          · rw [if_pos hcp, if_pos hcp]
          · rw [if_neg hcp, if_neg hcp]
            by_cases ht : rest.head? = some '~'
            · rw [if_pos ht, if_pos ht, ih rest.tail f2 htl1 htl2]
            · rw [if_neg ht, if_neg ht, ih rest f2 hr1 hr2]

theorem itemsSum_nil : itemsSum [] = some 0 := rfl

theorem itemsSum_step (c : Char) (rest : List Char) (hs : isStep c = true) :
    itemsSum (c :: rest) = (itemsSum rest).map (· + stepVal c) := by
  show itemsSumF (rest.length + 1) (c :: rest) = _
  rw [itemsSumF, if_pos hs]
  rfl

theorem itemsSum_none (c : Char) (rest : List Char) (hs : isStep c = false)
    (hcp : charToPiece c = none) : itemsSum (c :: rest) = none := by
  show itemsSumF (rest.length + 1) (c :: rest) = _
  rw [itemsSumF, if_neg (by simp [hs]), if_pos hcp]

theorem itemsSum_piece_plain (c : Char) (rest : List Char) (piece : Piece)
    (hs : isStep c = false) (hcp : charToPiece c = some piece)
    (hnt : rest.head? ≠ some '~') :
    itemsSum (c :: rest) = (itemsSum rest).map (· + 1) := by
  show itemsSumF (rest.length + 1) (c :: rest) = _
  rw [itemsSumF, if_neg (by simp [hs]), if_neg (by simp [hcp]), if_neg hnt]
  rfl

theorem itemsSum_piece_tilde (c : Char) (rest2 : List Char) (piece : Piece)
    (hs : isStep c = false) (hcp : charToPiece c = some piece) :
    itemsSum (c :: '~' :: rest2) = (itemsSum rest2).map (· + 1) := by
  show itemsSumF (rest2.length + 1 + 1) (c :: '~' :: rest2) = _
  rw [itemsSumF, if_neg (by simp [hs]), if_neg (by simp [hcp]),
    if_pos (by simp : (('~' :: rest2).head? = some '~'))]
  exact congrArg _ (itemsSumF_irrel _ _ _ (by simp) (le_refl _))

theorem splitOnChar_ne_nil (sep : Char) (l : List Char) : splitOnChar sep l ≠ [] := by
  cases l with
  | nil => simp [splitOnChar]
  | cons c cs =>
    rw [splitOnChar]
    split
    · simp
    · split <;> simp

theorem splitOnChar_sep (sep : Char) (rest : List Char) :
    splitOnChar sep (sep :: rest) = [] :: splitOnChar sep rest := by
  rw [splitOnChar, if_pos rfl]

theorem splitOnChar_cons_ne (sep c : Char) (rest : List Char) (h : c ≠ sep) :
    splitOnChar sep (c :: rest) =
      (c :: (splitOnChar sep rest).headD []) :: (splitOnChar sep rest).tail := by
  rw [splitOnChar, if_neg h]
  cases hsp : splitOnChar sep rest with
  | nil => exact absurd hsp (splitOnChar_ne_nil sep rest)
  | cons p ps => simp

theorem split_headD_head? (rest : List Char) (x : Char) (hx : x ≠ '/') :
    (((splitOnChar '/' rest).headD []).head? = some x) ↔ (rest.head? = some x) := by
  cases rest with
  | nil => simp [splitOnChar]
  | cons r rest2 =>
    by_cases hr : r = '/'
    · subst hr
      rw [splitOnChar_sep]
      simp only [List.headD_cons, List.head?_nil, List.head?_cons]
      constructor
      · intro h; cases h
      · intro h
        exfalso
        apply hx
        injection h with h2
        exact h2.symm
    · rw [splitOnChar_cons_ne _ _ _ hr]
      simp

theorem mapAdd_iff (X : Option Nat) (v file : Nat) :
    (∃ m, X.map (· + v) = some m ∧ file + m = 8) ↔
      (∃ m, X = some m ∧ (file + v) + m = 8) := by
  cases X with
  | none => simp
  | some k =>
    constructor
    · rintro ⟨m, hm, hfm⟩
      have h2 : k + v = m := by simpa using hm
      exact ⟨k, rfl, by omega⟩
    · rintro ⟨m, hm, hfm⟩
      have h2 : k = m := by simpa using hm
      exact ⟨k + v, rfl, by omega⟩

theorem parse_error_case (c : Char) (rest : List Char) (rank : Int) (file : Nat)
    (b : Board) (hns : ¬(c = '/' ∧ file = 8)) (hs : isStep c = false)
    (hdead : (8 ≤ file ∨ rank < 0) ∨ charToPiece c = none) :
    ¬ ∃ b2, parseBoardAux (c :: rest) rank file b = .ok b2 := by
  rintro ⟨b2, hok⟩
  by_cases hbad : 8 ≤ file ∨ rank < 0
  · rw [parseBoardAux_piece_err _ _ _ _ _ hns hs hbad] at hok
    cases hok
  · rcases hdead with hbad2 | hcp
    · exact hbad hbad2
    · rw [parseBoardAux_no_piece _ _ _ _ _ hns hs hbad hcp] at hok
      cases hok

/-- The board-parser loop succeeds exactly when the remaining input splits
into rank+1 slash-separated segments, the first covering the remaining
8-file files of the current rank and the rest covering 8 files each. -/
theorem boardGrammar_iff :
    ∀ (n : Nat) (cs : List Char), cs.length ≤ n → ∀ (rank : Int) (file : Nat) (b : Board),
      (∃ b2, parseBoardAux cs rank file b = .ok b2) ↔
        (((splitOnChar '/' cs).length : Int) = rank + 1 ∧
         (∃ m, itemsSum ((splitOnChar '/' cs).headD []) = some m ∧ file + m = 8) ∧
         (∀ seg ∈ (splitOnChar '/' cs).tail, itemsSum seg = some 8)) := by
  intro n
  induction n with
  | zero =>
    intro cs hlen rank file b
    have hnil : cs = [] := List.length_eq_zero.mp (Nat.le_zero.mp hlen)
    subst hnil
    rw [parseBoardAux_nil]
    constructor
    · rintro ⟨b2, hok⟩
      by_cases h : rank ≠ 0 ∨ file ≠ 8
      · rw [if_pos h] at hok; cases hok
      · push_neg at h
        refine ⟨by simp [splitOnChar, h.1], ⟨0, rfl, by omega⟩, by simp [splitOnChar]⟩
    · rintro ⟨hL, ⟨m, hm, hfm⟩, _⟩
      have hm0 : m = 0 := by
        rw [show ((splitOnChar '/' ([] : List Char)).headD []) = [] from rfl,
          itemsSum_nil] at hm
        injection hm with h
        omega
      have hr0 : rank = 0 := by
        simp only [splitOnChar, List.length_cons, List.length_nil] at hL
        omega
      refine ⟨b, ?_⟩
      rw [if_neg (by push_neg; exact ⟨hr0, by omega⟩)]
  | succ n ih =>
    intro cs hlen rank file b
    cases cs with
    | nil => exact ih [] (by simp) rank file b
    | cons c rest =>
      have hrest : rest.length ≤ n := by simp only [List.length_cons] at hlen; omega
      obtain ⟨hd0, tl0, hsp⟩ : ∃ hd0 tl0, splitOnChar '/' rest = hd0 :: tl0 := by
        cases hsp : splitOnChar '/' rest with
        | nil => exact absurd hsp (splitOnChar_ne_nil '/' rest)
        | cons p ps => exact ⟨p, ps, rfl⟩
      by_cases hslash : c = '/'
      · subst hslash
        rw [splitOnChar_sep, hsp]
        by_cases hf8 : file = 8
        · subst hf8
          simp only [parseBoardAux_slash]
          rw [ih rest hrest (rank - 1) 0 b, hsp]
          simp only [List.length_cons, List.headD_cons, List.tail_cons, List.mem_cons,
            itemsSum_nil, Option.some.injEq]
          constructor
          · rintro ⟨h1, ⟨m, hm, h0m⟩, h2⟩
            refine ⟨by push_cast at h1 ⊢; omega, ⟨0, rfl, by omega⟩, ?_⟩
            intro seg hseg
            rcases hseg with rfl | hseg
            · rw [hm]; congr 1; omega
            · exact h2 seg hseg
          · rintro ⟨h1, ⟨m, hm, h8m⟩, h2⟩
            refine ⟨by push_cast at h1 ⊢; omega, ⟨8, h2 hd0 (Or.inl rfl), by omega⟩, ?_⟩
            intro seg hseg
            exact h2 seg (Or.inr hseg)
        · constructor
          · intro hok
            exact absurd hok
              (parse_error_case _ _ _ _ _ (by simp [hf8]) (by decide) (Or.inr (by decide)))
          · rintro ⟨h1, ⟨m, hm, hfm⟩, h2⟩
            exfalso
            rw [List.headD_cons] at hm
            have : m = 0 := by simpa [itemsSum_nil] using hm.symm
            omega
      · rw [splitOnChar_cons_ne '/' c rest hslash, hsp]
        simp only [List.headD_cons, List.tail_cons]
        by_cases hstep : isStep c = true
        · rw [show (∃ b2, parseBoardAux (c :: rest) rank file b = .ok b2) ↔
              (∃ b2, parseBoardAux rest rank (file + stepVal c) b = .ok b2) from by
            rw [parseBoardAux_step c rest rank file b hstep]]
          rw [ih rest hrest rank (file + stepVal c) b, hsp]
          rw [itemsSum_step c hd0 hstep]
          simp only [List.length_cons, List.headD_cons, List.tail_cons]
          rw [mapAdd_iff]
        · have hs2 : isStep c = false := by simpa using hstep
          rcases hcp : charToPiece c with _ | piece
          · constructor
            · intro hok
              exact absurd hok
                (parse_error_case _ _ _ _ _ (by simp [hslash]) hs2 (Or.inr hcp))
            · rintro ⟨h1, ⟨m, hm, hfm⟩, h2⟩
              exfalso
              rw [itemsSum_none c hd0 hs2 hcp] at hm
              cases hm
          · by_cases hbad : 8 ≤ file ∨ rank < 0
            · constructor
              · intro hok
                exact absurd hok
                  (parse_error_case _ _ _ _ _ (by simp [hslash]) hs2 (Or.inl hbad))
              · rintro ⟨h1, ⟨m, hm, hfm⟩, h2⟩
                exfalso
                rcases hbad with hbad | hbad
                · have hm1 : 1 ≤ m := by
                    by_cases htld : hd0.head? = some '~'
                    · obtain ⟨hd2, rfl⟩ : ∃ hd2, hd0 = '~' :: hd2 := by
                        cases hd0 with
                        | nil => simp at htld
                        | cons x xs =>
                          refine ⟨xs, ?_⟩
                          simp only [List.head?_cons, Option.some.injEq] at htld
                          rw [htld]
                      rw [itemsSum_piece_tilde c hd2 piece hs2 hcp] at hm
                      rcases hx : itemsSum hd2 with _ | k <;> rw [hx] at hm
                      · cases hm
                      · have : k + 1 = m := by simpa using hm
                        omega
                    · rw [itemsSum_piece_plain c hd0 piece hs2 hcp htld] at hm
                      rcases hx : itemsSum hd0 with _ | k <;> rw [hx] at hm
                      · cases hm
                      · have : k + 1 = m := by simpa using hm
                        omega
                  omega
                · simp only [List.length_cons] at h1
                  have : (0 : Int) ≤ tl0.length := by positivity
                  omega
            · by_cases htilde : rest.head? = some '~'
              · obtain ⟨rest2, rfl⟩ : ∃ rest2, rest = '~' :: rest2 := by
                  cases rest with
                  | nil => simp at htilde
                  | cons x xs =>
                    refine ⟨xs, ?_⟩
                    simp only [List.head?_cons, Option.some.injEq] at htilde
                    rw [htilde]
                have hr2 : rest2.length ≤ n := by
                  simp only [List.length_cons] at hlen; omega
                obtain ⟨hd2, tl2, hsp2⟩ : ∃ hd2 tl2, splitOnChar '/' rest2 = hd2 :: tl2 := by
                  cases hsp2 : splitOnChar '/' rest2 with
                  | nil => exact absurd hsp2 (splitOnChar_ne_nil '/' rest2)
                  | cons p ps => exact ⟨p, ps, rfl⟩
                have hd0eq : hd0 = '~' :: hd2 ∧ tl0 = tl2 := by
                  rw [splitOnChar_cons_ne '/' '~' rest2 (by decide), hsp2] at hsp
                  simp only [List.headD_cons, List.tail_cons, List.cons.injEq] at hsp
                  exact ⟨hsp.1.symm ▸ rfl, hsp.2.symm ▸ rfl⟩
                obtain ⟨rfl, rfl⟩ := hd0eq
                rw [show (∃ b2, parseBoardAux (c :: '~' :: rest2) rank file b = .ok b2) ↔
                    (∃ b2, parseBoardAux rest2 rank (file + 1)
                      (bSet b (file + rank.toNat * 8)
                        { piece with promoted := true }) = .ok b2) from by
                  rw [parseBoardAux_piece_tilde c rest2 rank file b piece
                    (by simp [hslash]) hs2 hbad hcp]]
                rw [ih rest2 hr2 rank (file + 1) _, hsp2]
                rw [itemsSum_piece_tilde c hd2 piece hs2 hcp]
                simp only [List.length_cons, List.headD_cons, List.tail_cons]
                rw [show (∃ m, (itemsSum hd2).map (· + 1) = some m ∧ file + m = 8) ↔
                    (∃ m, itemsSum hd2 = some m ∧ (file + 1) + m = 8) from
                  mapAdd_iff (itemsSum hd2) 1 file]
              · have hnt0 : hd0.head? ≠ some '~' := by
                  intro hcontra
                  apply htilde
                  have := (split_headD_head? rest '~' (by decide)).mp
                  rw [hsp] at this
                  exact this (by simpa using hcontra)
                rw [show (∃ b2, parseBoardAux (c :: rest) rank file b = .ok b2) ↔
                    (∃ b2, parseBoardAux rest rank (file + 1)
                      (bSet b (file + rank.toNat * 8) piece) = .ok b2) from by
                  rw [parseBoardAux_piece_plain c rest rank file b piece
                    (by simp [hslash]) hs2 hbad hcp htilde]]
                rw [ih rest hrest rank (file + 1) _, hsp]
                rw [itemsSum_piece_plain c hd0 piece hs2 hcp hnt0]
                simp only [List.length_cons, List.headD_cons, List.tail_cons]
                rw [show (∃ m, (itemsSum hd0).map (· + 1) = some m ∧ file + m = 8) ↔
                    (∃ m, itemsSum hd0 = some m ∧ (file + 1) + m = 8) from
                  mapAdd_iff (itemsSum hd0) 1 file]

theorem parseBoardAuxF_ok_or_err :
    ∀ (f : Nat) (cs : List Char) (rank : Int) (file : Nat) (b : Board),
      (∃ b2, parseBoardAuxF f cs rank file b = .ok b2) ∨
        parseBoardAuxF f cs rank file b = .error .board := by
  intro f
  induction f with
  | zero =>
    intro cs rank file b
    cases cs with
    | nil =>
      simp only [parseBoardAuxF]
      split
      · exact Or.inr rfl
      · exact Or.inl ⟨b, rfl⟩
    | cons c rest => exact Or.inr rfl
  | succ f ih =>
    intro cs rank file b
    cases cs with
    | nil =>
      simp only [parseBoardAuxF]
      split
      · exact Or.inr rfl
      · exact Or.inl ⟨b, rfl⟩
    | cons c rest =>
      simp only [parseBoardAuxF]
      split
      · exact ih rest _ _ _
      · split
        · exact ih rest _ _ _
        · split
          · exact Or.inr rfl
          · split
            · exact Or.inr rfl
            · split
              · exact ih rest.tail _ _ _
              · exact ih rest _ _ _

/-- C6: parseBoardFen succeeds exactly on strings of eight slash-separated
rank segments whose piece characters (each optionally followed by a tilde)
and empty-square digits cover exactly 8 files each; on every other input
it returns the typed board error, never a repaired board. -/
theorem C6_parseBoardFen_grammar :
    ∀ cs : List Char,
      ((∃ b, parseBoardFen cs = .ok b) ↔ validBoardFen cs = true) ∧
      (validBoardFen cs = false → parseBoardFen cs = .error .board) := by
  intro cs
  have hiff := boardGrammar_iff cs.length cs (le_refl _) 7 0 Board.emptyB
  obtain ⟨hd0, tl0, hsp⟩ : ∃ hd tl, splitOnChar '/' cs = hd :: tl := by
    cases hsp : splitOnChar '/' cs with
    | nil => exact absurd hsp (splitOnChar_ne_nil '/' cs)
    | cons p ps => exact ⟨p, ps, rfl⟩
  have hval : validBoardFen cs = true ↔
      (((splitOnChar '/' cs).length : Int) = 7 + 1 ∧
       (∃ m, itemsSum ((splitOnChar '/' cs).headD []) = some m ∧ 0 + m = 8) ∧
       (∀ seg ∈ (splitOnChar '/' cs).tail, itemsSum seg = some 8)) := by
    rw [validBoardFen, hsp]
    simp only [Bool.and_eq_true, decide_eq_true_eq, List.all_eq_true,
      List.length_cons, List.headD_cons, List.tail_cons, List.mem_cons]
    constructor
    · rintro ⟨hL, hall⟩
      refine ⟨by push_cast; omega, ⟨8, hall hd0 (Or.inl rfl), by omega⟩, ?_⟩
      intro seg hseg
      exact hall seg (Or.inr hseg)
    · rintro ⟨hL, ⟨m, hm, h0m⟩, htl⟩
      have hm8 : m = 8 := by omega
      subst hm8
      refine ⟨by push_cast at hL; omega, ?_⟩
      intro seg hseg
      rcases hseg with rfl | hseg
      · exact hm
      · exact htl seg hseg
  constructor
  · exact hiff.trans hval.symm
  · intro hfalse
    rcases parseBoardAuxF_ok_or_err cs.length cs 7 0 Board.emptyB with ⟨b2, hok⟩ | herr
    · exfalso
      have htrue := hval.mpr (hiff.mp ⟨b2, hok⟩)
      rw [htrue] at hfalse
      cases hfalse
    · exact herr

/-- Witness for C6: the empty-board FEN parses, and a malformed input is
rejected with the board error. -/
theorem C6_parseBoardFen_grammar_witness :
    (∃ b, parseBoardFen emptyBoardOnly = .ok b) ∧
      parseBoardFen badBoardOnly = .error .board :=
  ⟨(C6_parseBoardFen_grammar emptyBoardOnly).1.mpr (by decide),
   (C6_parseBoardFen_grammar badBoardOnly).2 (by decide)⟩

/-! ## C9: omitted trailing FEN fields take defaults -/

theorem parseBoardAuxF_chars :
    ∀ (f : Nat) (cs : List Char) (rank : Int) (file : Nat) (b b2 : Board),
      parseBoardAuxF f cs rank file b = .ok b2 → ∀ ch ∈ cs, isBoardChar ch = true := by
  intro f
  induction f with
  | zero =>
    intro cs rank file b b2 hok ch hch
    cases cs with
    | nil => simp at hch
    | cons c rest => cases hok
  | succ f ih =>
    intro cs rank file b b2 hok ch hch
    cases cs with
    | nil => simp at hch
    | cons c rest =>
      simp only [parseBoardAuxF] at hok
      by_cases hc : c = '/' ∧ file = 8
      · rw [if_pos hc] at hok
        rcases List.mem_cons.mp hch with rfl | hch2
        · simp [isBoardChar, hc.1]
        · exact ih rest _ _ _ _ hok ch hch2
      · rw [if_neg hc] at hok
        by_cases hs : isStep c = true
        · rw [if_pos hs] at hok
          rcases List.mem_cons.mp hch with rfl | hch2
          · simp [isBoardChar, hs]
          · exact ih rest _ _ _ _ hok ch hch2
        · rw [if_neg hs] at hok
          by_cases hbad : 8 ≤ file ∨ rank < 0
          · rw [if_pos hbad] at hok; cases hok
          · rw [if_neg hbad] at hok
            by_cases hcp : charToPiece c = none
            · rw [if_pos hcp] at hok; cases hok
            · rw [if_neg hcp] at hok
              have hcc : isBoardChar c = true := by
                simp [isBoardChar, Option.isSome_iff_ne_none, hcp]
              by_cases htl : rest.head? = some '~'
              · rw [if_pos htl] at hok
                rcases List.mem_cons.mp hch with rfl | hch2
                · exact hcc
                · cases rest with
                  | nil => simp at htl
                  | cons r rrest =>
                    have hr : r = '~' := by simpa using htl
                    rcases List.mem_cons.mp hch2 with rfl | hch3
                    · simp [isBoardChar, hr]
                    · exact ih rrest _ _ _ _ hok ch hch3
              · rw [if_neg htl] at hok
                rcases List.mem_cons.mp hch with rfl | hch2
                · exact hcc
                · exact ih rest _ _ _ _ hok ch hch2

theorem parseBoardFen_chars (cs : List Char) (b : Board)
    (h : parseBoardFen cs = .ok b) : ∀ ch ∈ cs, isBoardChar ch = true :=
  parseBoardAuxF_chars cs.length cs 7 0 Board.emptyB b h

theorem splitOnChar_not_mem (sep : Char) :
    ∀ (l : List Char), sep ∉ l → splitOnChar sep l = [l] := by
  intro l
  induction l with
  | nil => intro _; rfl
  | cons c rest ih =>
    intro hmem
    have hc : c ≠ sep := fun h => hmem (h ▸ List.mem_cons_self c rest)
    rw [splitOnChar_cons_ne sep c rest hc,
      ih (fun h => hmem (List.mem_cons_of_mem c h))]
    rfl

theorem splitOnChar_append_sep (sep : Char) :
    ∀ (A B : List Char), sep ∉ A →
      splitOnChar sep (A ++ sep :: B) = A :: splitOnChar sep B := by
  intro A
  induction A with
  | nil => intro B _; exact splitOnChar_sep sep B
  | cons a A ih =>
    intro B hmem
    have ha : a ≠ sep := fun h => hmem (h ▸ List.mem_cons_self a A)
    rw [List.cons_append, splitOnChar_cons_ne sep a _ ha,
      ih B (fun h => hmem (List.mem_cons_of_mem a h))]
    rfl

theorem splitOnChar_length_count (sep : Char) :
    ∀ l : List Char, (splitOnChar sep l).length = l.count sep + 1 := by
  intro l
  induction l with
  | nil => rfl
  | cons c rest ih =>
    by_cases hc : c = sep
    · subst hc
      rw [splitOnChar_sep]
      simp [ih, List.count_cons]
    · rw [splitOnChar_cons_ne sep c rest hc]
      simp only [List.length_cons]
      rw [List.count_cons]
      have := splitOnChar_ne_nil sep rest
      cases hsp : splitOnChar sep rest with
      | nil => exact absurd hsp this
      | cons p ps =>
        rw [hsp] at ih
        simp only [List.length_cons] at ih
        simp [beq_iff_eq, hc, ih]

theorem occurrenceIdxs_length (c : Char) :
    ∀ l : List Char, (occurrenceIdxs l c).length = l.count c := by
  intro l
  induction l with
  | nil => rfl
  | cons x rest ih =>
    rw [occurrenceIdxs]
    by_cases hx : x = c
    · rw [if_pos hx]
      simp [ih, List.count_cons, hx]
    · rw [if_neg hx]
      simp [ih, List.count_cons, hx]

theorem nthIndexOf_none (l : List Char) (c : Char) (n : Nat)
    (h : l.count c ≤ n) : nthIndexOf l c n = none := by
  rw [nthIndexOf]
  apply List.get?_eq_none.mpr
  rw [occurrenceIdxs_length]
  exact h

theorem boardChar_props (ch : Char) (h : isBoardChar ch = true) :
    ch ≠ ']' ∧ ch ≠ ' ' ∧ ch ≠ '[' := by
  rw [isBoardChar] at h
  simp only [Bool.or_eq_true, decide_eq_true_eq] at h
  refine ⟨?_, ?_, ?_⟩ <;> intro hc <;> subst hc <;> revert h <;> decide

/-- A board part accepted by parseBoardFen has exactly seven slashes. -/
theorem parseBoardFen_count_slash (cs : List Char) (b : Board)
    (h : parseBoardFen cs = .ok b) : cs.count '/' = 7 := by
  have := (boardGrammar_iff cs.length cs (le_refl _) 7 0 Board.emptyB).mp ⟨b, h⟩
  have hlen := this.1
  rw [splitOnChar_length_count] at hlen
  omega

/-! ## C1: pockets round trip -/

theorem parsePocketsAux_replicate (ch : Char) (rl : Role) (col : Color)
    (hch : charToPiece ch = some ⟨rl, col, false⟩) :
    ∀ (k : Nat) (rest : List Char) (acc : Material),
      parsePocketsAux (List.replicate k ch ++ rest) acc =
        parsePocketsAux rest (incKC col rl k acc) := by
  intro k
  induction k with
  | zero => intro rest acc; simp [incKC]
  | succ k ih =>
    intro rest acc
    rw [List.replicate_succ, List.cons_append, parsePocketsAux, hch, incKC]
    exact ih rest (acc.inc col rl)

theorem incKC_wp : ∀ (k : Nat) (m : Material), incKC .white .pawn k m =
    ⟨⟨m.white.pawn + k, m.white.knight, m.white.bishop, m.white.rook, m.white.queen,
      m.white.king⟩, m.black⟩ := by
  intro k
  induction k with
  | zero => intro m; rfl
  | succ k ih =>
    intro m
    rw [incKC, ih]
    simp only [Material.inc, MaterialSide.inc, Material.mk.injEq, MaterialSide.mk.injEq,
      and_true, true_and]
    omega

theorem incKC_wn : ∀ (k : Nat) (m : Material), incKC .white .knight k m =
    ⟨⟨m.white.pawn, m.white.knight + k, m.white.bishop, m.white.rook, m.white.queen,
      m.white.king⟩, m.black⟩ := by
  intro k
  induction k with
  | zero => intro m; rfl
  | succ k ih =>
    intro m
    rw [incKC, ih]
    simp only [Material.inc, MaterialSide.inc, Material.mk.injEq, MaterialSide.mk.injEq,
      and_true, true_and]
    omega

theorem incKC_wb : ∀ (k : Nat) (m : Material), incKC .white .bishop k m =
    ⟨⟨m.white.pawn, m.white.knight, m.white.bishop + k, m.white.rook, m.white.queen,
      m.white.king⟩, m.black⟩ := by
  intro k
  induction k with
  | zero => intro m; rfl
  | succ k ih =>
    intro m
    rw [incKC, ih]
    simp only [Material.inc, MaterialSide.inc, Material.mk.injEq, MaterialSide.mk.injEq,
      and_true, true_and]
    omega

theorem incKC_wr : ∀ (k : Nat) (m : Material), incKC .white .rook k m =
    ⟨⟨m.white.pawn, m.white.knight, m.white.bishop, m.white.rook + k, m.white.queen,
      m.white.king⟩, m.black⟩ := by
  intro k
  induction k with
  | zero => intro m; rfl
  | succ k ih =>
    intro m
    rw [incKC, ih]
    simp only [Material.inc, MaterialSide.inc, Material.mk.injEq, MaterialSide.mk.injEq,
      and_true, true_and]
    omega

theorem incKC_wq : ∀ (k : Nat) (m : Material), incKC .white .queen k m =
    ⟨⟨m.white.pawn, m.white.knight, m.white.bishop, m.white.rook, m.white.queen + k,
      m.white.king⟩, m.black⟩ := by
  intro k
  induction k with
  | zero => intro m; rfl
  | succ k ih =>
    intro m
    rw [incKC, ih]
    simp only [Material.inc, MaterialSide.inc, Material.mk.injEq, MaterialSide.mk.injEq,
      and_true, true_and]
    omega

theorem incKC_wk : ∀ (k : Nat) (m : Material), incKC .white .king k m =
    ⟨⟨m.white.pawn, m.white.knight, m.white.bishop, m.white.rook, m.white.queen,
      m.white.king + k⟩, m.black⟩ := by
  intro k
  induction k with
  | zero => intro m; rfl
  | succ k ih =>
    intro m
    rw [incKC, ih]
    simp only [Material.inc, MaterialSide.inc, Material.mk.injEq, MaterialSide.mk.injEq,
      and_true, true_and]
    omega

theorem incKC_bp : ∀ (k : Nat) (m : Material), incKC .black .pawn k m =
    ⟨m.white, ⟨m.black.pawn + k, m.black.knight, m.black.bishop, m.black.rook,
      m.black.queen, m.black.king⟩⟩ := by
  intro k
  induction k with
  | zero => intro m; rfl
  | succ k ih =>
    intro m
    rw [incKC, ih]
    simp only [Material.inc, MaterialSide.inc, Material.mk.injEq, MaterialSide.mk.injEq,
      and_true, true_and]
    omega

theorem incKC_bn : ∀ (k : Nat) (m : Material), incKC .black .knight k m =
    ⟨m.white, ⟨m.black.pawn, m.black.knight + k, m.black.bishop, m.black.rook,
      m.black.queen, m.black.king⟩⟩ := by
  intro k
  induction k with
  | zero => intro m; rfl
  | succ k ih =>
    intro m
    rw [incKC, ih]
    simp only [Material.inc, MaterialSide.inc, Material.mk.injEq, MaterialSide.mk.injEq,
      and_true, true_and]
    omega

theorem incKC_bb : ∀ (k : Nat) (m : Material), incKC .black .bishop k m =
    ⟨m.white, ⟨m.black.pawn, m.black.knight, m.black.bishop + k, m.black.rook,
      m.black.queen, m.black.king⟩⟩ := by
  intro k
  induction k with
  | zero => intro m; rfl
  | succ k ih =>
    intro m
    rw [incKC, ih]
    simp only [Material.inc, MaterialSide.inc, Material.mk.injEq, MaterialSide.mk.injEq,
      and_true, true_and]
    omega

theorem incKC_br : ∀ (k : Nat) (m : Material), incKC .black .rook k m =
    ⟨m.white, ⟨m.black.pawn, m.black.knight, m.black.bishop, m.black.rook + k,
      m.black.queen, m.black.king⟩⟩ := by
  intro k
  induction k with
  | zero => intro m; rfl
  | succ k ih =>
    intro m
    rw [incKC, ih]
    simp only [Material.inc, MaterialSide.inc, Material.mk.injEq, MaterialSide.mk.injEq,
      and_true, true_and]
    omega

theorem incKC_bq : ∀ (k : Nat) (m : Material), incKC .black .queen k m =
    ⟨m.white, ⟨m.black.pawn, m.black.knight, m.black.bishop, m.black.rook,
      m.black.queen + k, m.black.king⟩⟩ := by
  intro k
  induction k with
  | zero => intro m; rfl
  | succ k ih =>
    intro m
    rw [incKC, ih]
    simp only [Material.inc, MaterialSide.inc, Material.mk.injEq, MaterialSide.mk.injEq,
      and_true, true_and]
    omega

theorem incKC_bk : ∀ (k : Nat) (m : Material), incKC .black .king k m =
    ⟨m.white, ⟨m.black.pawn, m.black.knight, m.black.bishop, m.black.rook,
      m.black.queen, m.black.king + k⟩⟩ := by
  intro k
  induction k with
  | zero => intro m; rfl
  | succ k ih =>
    intro m
    rw [incKC, ih]
    simp only [Material.inc, MaterialSide.inc, Material.mk.injEq, MaterialSide.mk.injEq,
      and_true, true_and]
    omega

theorem makePocketSide_eq (ms : MaterialSide) :
    makePocketSide ms =
      List.replicate ms.pawn 'p' ++ (List.replicate ms.knight 'n' ++
        (List.replicate ms.bishop 'b' ++ (List.replicate ms.rook 'r' ++
          (List.replicate ms.queen 'q' ++ (List.replicate ms.king 'k' ++ []))))) := rfl

theorem makePockets_eq (m : Material) :
    makePockets m =
      List.replicate m.white.pawn 'P' ++ (List.replicate m.white.knight 'N' ++
        (List.replicate m.white.bishop 'B' ++ (List.replicate m.white.rook 'R' ++
          (List.replicate m.white.queen 'Q' ++ (List.replicate m.white.king 'K' ++
            (List.replicate m.black.pawn 'p' ++ (List.replicate m.black.knight 'n' ++
              (List.replicate m.black.bishop 'b' ++ (List.replicate m.black.rook 'r' ++
                (List.replicate m.black.queen 'q' ++
                  (List.replicate m.black.king 'k' ++ []))))))))))) := by
  rw [makePockets, makePocketSide_eq, makePocketSide_eq]
  simp [List.map_replicate, List.append_assoc]

theorem parsePockets_makePockets (m : Material) :
    parsePockets (makePockets m) = .ok m := by
  obtain ⟨⟨a, b, c, d, e, f⟩, ⟨g, h, i, j, k, l⟩⟩ := m
  rw [parsePockets, makePockets_eq]
  rw [parsePocketsAux_replicate 'P' .pawn .white rfl,
    parsePocketsAux_replicate 'N' .knight .white rfl,
    parsePocketsAux_replicate 'B' .bishop .white rfl,
    parsePocketsAux_replicate 'R' .rook .white rfl,
    parsePocketsAux_replicate 'Q' .queen .white rfl,
    parsePocketsAux_replicate 'K' .king .white rfl,
    parsePocketsAux_replicate 'p' .pawn .black rfl,
    parsePocketsAux_replicate 'n' .knight .black rfl,
    parsePocketsAux_replicate 'b' .bishop .black rfl,
    parsePocketsAux_replicate 'r' .rook .black rfl,
    parsePocketsAux_replicate 'q' .queen .black rfl,
    parsePocketsAux_replicate 'k' .king .black rfl]
  rw [incKC_wp, incKC_wn, incKC_wb, incKC_wr, incKC_wq, incKC_wk,
    incKC_bp, incKC_bn, incKC_bb, incKC_br, incKC_bq, incKC_bk]
  simp [parsePocketsAux, Material.emptyMat, MaterialSide.emptyM]

/-! ## C1: decimal printing round trip -/

theorem digitChar_isStep (n : Nat) (h1 : 1 ≤ n) (h2 : n ≤ 9) :
    isStep (digitChar n) = true ∧ stepVal (digitChar n) = n := by
  interval_cases n <;> exact ⟨rfl, rfl⟩

theorem digitChar_isDigit (n : Nat) (h : n < 10) : isDigitChar (digitChar n) = true := by
  interval_cases n <;> rfl

theorem digitChar_toNat (n : Nat) (h : n < 10) : (digitChar n).toNat = 48 + n := by
  interval_cases n <;> rfl

theorem natToCharsAux_digits :
    ∀ (fuel n : Nat), n ≤ fuel → ∀ c ∈ natToCharsAux fuel n, isDigitChar c = true := by
  intro fuel
  induction fuel with
  | zero =>
    intro n hn c hc
    have hn0 : n = 0 := by omega
    subst hn0
    rw [natToCharsAux] at hc
    simp only [List.mem_singleton] at hc
    subst hc
    rfl
  | succ fuel ih =>
    intro n hn c hc
    rw [natToCharsAux] at hc
    by_cases h10 : n < 10
    · rw [if_pos h10] at hc
      simp only [List.mem_singleton] at hc
      subst hc
      exact digitChar_isDigit n h10
    · rw [if_neg h10] at hc
      rcases List.mem_append.mp hc with h | h
      · have hdiv : n / 10 ≤ fuel := by
          have := Nat.div_lt_self (show 0 < n by omega) (show 1 < 10 by omega)
          omega
        exact ih (n / 10) hdiv c h
      · simp only [List.mem_singleton] at h
        subst h
        exact digitChar_isDigit (n % 10) (Nat.mod_lt _ (by omega))

theorem digitsVal_append_digit (A : List Char) (c : Char) :
    digitsVal (A ++ [c]) = 10 * digitsVal A + (c.toNat - 48) := by
  rw [digitsVal, digitsVal, List.foldl_append]
  rfl

theorem natToCharsAux_val :
    ∀ (fuel n : Nat), n ≤ fuel → digitsVal (natToCharsAux fuel n) = n := by
  intro fuel
  induction fuel with
  | zero =>
    intro n hn
    have hn0 : n = 0 := by omega
    subst hn0
    rfl
  | succ fuel ih =>
    intro n hn
    rw [natToCharsAux]
    by_cases h10 : n < 10
    · rw [if_pos h10]
      show digitsVal [digitChar n] = n
      rw [show digitsVal [digitChar n] = 10 * 0 + ((digitChar n).toNat - 48) from rfl,
        digitChar_toNat n h10]
      omega
    · rw [if_neg h10, digitsVal_append_digit]
      have hdiv : n / 10 ≤ fuel := by
        have := Nat.div_lt_self (show 0 < n by omega) (show 1 < 10 by omega)
        omega
      rw [ih (n / 10) hdiv, digitChar_toNat (n % 10) (Nat.mod_lt _ (by omega))]
      have := Nat.div_add_mod n 10
      omega

theorem natToCharsAux_len :
    ∀ (fuel n kk : Nat), n ≤ fuel → n < 10 ^ kk → 1 ≤ kk →
      (natToCharsAux fuel n).length ≤ kk := by
  intro fuel
  induction fuel with
  | zero =>
    intro n kk hn _ hk
    have hn0 : n = 0 := by omega
    subst hn0
    simpa [natToCharsAux] using hk
  | succ fuel ih =>
    intro n kk hn hpow hk
    rw [natToCharsAux]
    by_cases h10 : n < 10
    · rw [if_pos h10]
      simpa using hk
    · rw [if_neg h10]
      have hk2 : 2 ≤ kk := by
        by_contra hcon
        have hk1 : kk = 1 := by omega
        subst hk1
        simp at hpow
        omega
      have hdiv : n / 10 ≤ fuel := by
        have := Nat.div_lt_self (show 0 < n by omega) (show 1 < 10 by omega)
        omega
      have hdivpow : n / 10 < 10 ^ (kk - 1) := by
        have h1 : 10 ^ kk = 10 ^ (kk - 1) * 10 := by
          rw [← pow_succ]
          congr 1
          omega
        rw [Nat.div_lt_iff_lt_mul (by omega)]
        omega
      have := ih (n / 10) (kk - 1) hdiv hdivpow (by omega)
      simp only [List.length_append, List.length_singleton]
      omega

theorem natToChars_ne_nil (n : Nat) : natToChars n ≠ [] := by
  rw [natToChars]
  cases n with
  | zero => simp [natToCharsAux]
  | succ n2 =>
    rw [natToCharsAux]
    split
    · simp
    · simp

theorem natToChars_digits (n : Nat) : ∀ c ∈ natToChars n, isDigitChar c = true :=
  natToCharsAux_digits n n (le_refl n)

theorem parseSmallUint_natToChars (n : Nat) (h : n ≤ 9999) :
    parseSmallUint (natToChars n) = some n := by
  have hlen1 : 1 ≤ (natToChars n).length := by
    cases hc : natToChars n with
    | nil => exact absurd hc (natToChars_ne_nil n)
    | cons x xs => simp
  have hlen4 : (natToChars n).length ≤ 4 :=
    natToCharsAux_len n n 4 (le_refl n) (by omega) (by omega)
  have hall : (natToChars n).all isDigitChar = true := by
    rw [List.all_eq_true]
    intro c hc
    exact natToChars_digits n c hc
  rw [parseSmallUint, if_pos ⟨hlen1, hlen4, hall⟩]
  rw [natToChars, natToCharsAux_val n n (le_refl n)]

theorem digitChar_props (c : Char) (h : isDigitChar c = true) :
    c ≠ '+' ∧ c ≠ ' ' ∧ c ≠ '-' ∧ c ≠ '[' ∧ c ≠ ']' := by
  refine ⟨?_, ?_, ?_, ?_, ?_⟩ <;> rintro rfl <;> exact absurd h (by decide)

theorem contains_iff_mem (c : Char) : ∀ (l : List Char), l.contains c = true ↔ c ∈ l := by
  intro l
  induction l with
  | nil => simp
  | cons x xs ih =>
    rw [List.contains_cons]
    simp only [Bool.or_eq_true, beq_iff_eq, List.mem_cons, ih]

theorem natToChars_no_plus (n : Nat) : (natToChars n).contains '+' = false := by
  rw [← Bool.not_eq_true, contains_iff_mem]
  intro hmem
  exact absurd (natToChars_digits n '+' hmem) (by decide)

/-! ## C1: board round trip -/

theorem makePiece_false (p : Piece) :
    makePiece p false =
      [if p.color = .white then (roleToChar p.role).toUpper else roleToChar p.role] := by
  simp [makePiece]

theorem charToPiece_pieceChar (p : Piece) :
    charToPiece (if p.color = .white then (roleToChar p.role).toUpper else roleToChar p.role) =
      some (dePromote p) := by
  obtain ⟨rl, col, pr⟩ := p
  cases rl <;> cases col <;> rfl

theorem pieceChar_isStep (p : Piece) :
    isStep (if p.color = .white then (roleToChar p.role).toUpper else roleToChar p.role) =
      false := by
  obtain ⟨rl, col, pr⟩ := p
  cases rl <;> cases col <;> rfl

theorem emitFiles_chars (b : Board) (r : Nat) :
    ∀ (n f e : Nat), e + n ≤ 8 → ∀ ch ∈ emitFiles b false r n f e,
      isStep ch = true ∨ (charToPiece ch).isSome = true := by
  intro n
  induction n with
  | zero =>
    intro f e he ch hch
    rw [emitFiles, flushDigit] at hch
    by_cases he0 : e = 0
    · rw [if_pos he0] at hch
      simp at hch
    · rw [if_neg he0] at hch
      simp only [List.mem_singleton] at hch
      subst hch
      have h1 : 1 ≤ e := by omega
      have h2 : e ≤ 9 := by omega
      exact Or.inl (digitChar_isStep e h1 h2).1
  | succ n ih =>
    intro f e he ch hch
    rw [emitFiles] at hch
    cases hb : bGet b (f + r * 8) with
    | none =>
      simp only [hb] at hch
      exact ih (f + 1) (e + 1) (by omega) ch hch
    | some p =>
      simp only [hb] at hch
      rw [makePiece_false] at hch
      rcases List.mem_append.mp hch with h | h
      · rcases List.mem_append.mp h with h2 | h2
        · rw [flushDigit] at h2
          by_cases he0 : e = 0
          · rw [if_pos he0] at h2
            simp at h2
          · rw [if_neg he0] at h2
            simp only [List.mem_singleton] at h2
            subst h2
            exact Or.inl (digitChar_isStep e (by omega) (by omega)).1
        · simp only [List.mem_singleton] at h2
          subst h2
          right
          rw [charToPiece_pieceChar]
          rfl
      · exact ih (f + 1) 0 (by omega) ch h

theorem goodChar_props (ch : Char)
    (h : isStep ch = true ∨ (charToPiece ch).isSome = true) :
    ch ≠ ' ' ∧ ch ≠ '[' ∧ ch ≠ ']' ∧ ch ≠ '-' ∧ ch ≠ '+' ∧ ch ≠ '/' ∧ ch ≠ '~' := by
  refine ⟨?_, ?_, ?_, ?_, ?_, ?_, ?_⟩ <;> rintro rfl <;>
    rcases h with h | h <;> exact absurd h (by decide)

theorem head?_append_ne (l rest : List Char)
    (hl : ∀ ch ∈ l, isStep ch = true ∨ (charToPiece ch).isSome = true)
    (hrest : rest.head? ≠ some '~') : (l ++ rest).head? ≠ some '~' := by
  cases l with
  | nil => simpa using hrest
  | cons x xs =>
    simp only [List.cons_append, List.head?_cons]
    intro hx
    injection hx with hx
    exact (goodChar_props x (hl x (List.mem_cons_self x xs))).2.2.2.2.2.2 hx

theorem parse_flush (e fl : Nat) (he : e ≤ 8) (rest : List Char) (rank : Int) (b0 : Board) :
    parseBoardAux (flushDigit e ++ rest) rank fl b0 =
      parseBoardAux rest rank (fl + e) b0 := by
  cases e with
  | zero => simp [flushDigit]
  | succ e2 =>
    have hd := digitChar_isStep (e2 + 1) (by omega) (by omega)
    rw [flushDigit, if_neg (by omega), List.singleton_append,
      parseBoardAux_step _ _ _ _ _ hd.1, hd.2]

theorem parse_emit (b : Board) (r : Nat) :
    ∀ (n f e : Nat) (b0 : Board) (rest : List Char), f + n = 8 → e ≤ f →
      rest.head? ≠ some '~' →
      parseBoardAux (emitFiles b false r n f e ++ rest) (Int.ofNat r) (f - e) b0 =
        parseBoardAux rest (Int.ofNat r) 8 (writeFiles b r n f b0) := by
  intro n
  induction n with
  | zero =>
    intro f e b0 rest hfn he hrest
    rw [emitFiles, writeFiles, parse_flush e (f - e) (by omega) rest _ b0,
      show f - e + e = 8 by omega]
  | succ n ih =>
    intro f e b0 rest hfn he hrest
    have hf7 : f ≤ 7 := by omega
    rw [emitFiles, writeFiles]
    cases hb : bGet b (f + r * 8) with
    | none =>
      simp only [hb]
      have h := ih (f + 1) (e + 1) b0 rest (by omega) (by omega) hrest
      rw [show f + 1 - (e + 1) = f - e by omega] at h
      exact h
    | some p =>
      simp only [hb]
      rw [makePiece_false]
      rw [List.append_assoc, List.append_assoc, parse_flush e (f - e) (by omega),
        show f - e + e = f by omega, List.singleton_append]
      have hnt : (emitFiles b false r n (f + 1) 0 ++ rest).head? ≠ some '~' :=
        head?_append_ne _ rest (fun ch hch => emitFiles_chars b r n (f + 1) 0 (by omega) ch hch)
          hrest
      rw [parseBoardAux_piece_plain _ _ _ _ _ (dePromote p)
        (fun hc => by omega) (pieceChar_isStep p)
        (by simp; omega) (charToPiece_pieceChar p) hnt]
      have h := ih (f + 1) 0 (bSet b0 (f + (Int.ofNat r).toNat * 8) (dePromote p)) rest
        (by omega) (by omega) hrest
      rw [show f + 1 - 0 = f + 1 from rfl] at h
      rw [h, show (Int.ofNat r).toNat = r from rfl]

theorem bGet_lt (b : Board) (v : Nat) (h : v < 64) : bGet b v = b ⟨v, h⟩ := dif_pos h

theorem bSet_apply (b : Board) (v : Nat) (p : Piece) (s : Square) :
    bSet b v p s = if s.val = v then some p else b s := rfl

theorem writeFiles_apply (b : Board) (r : Nat) (hr : r ≤ 7) :
    ∀ (n f : Nat), f + n = 8 → ∀ (b0 : Board) (s : Square),
      writeFiles b r n f b0 s =
        if s.val / 8 = r ∧ f ≤ s.val % 8 then
          (match b s with
           | some p => some (dePromote p)
           | none => b0 s)
        else b0 s := by
  intro n
  induction n with
  | zero =>
    intro f hfn b0 s
    have hmod : s.val % 8 < 8 := Nat.mod_lt _ (by omega)
    rw [writeFiles, if_neg (by omega)]
  | succ n ih =>
    intro f hfn b0 s
    have hf7 : f ≤ 7 := by omega
    have hidx : f + r * 8 < 64 := by omega
    have hdm := Nat.div_add_mod s.val 8
    have hmod : s.val % 8 < 8 := Nat.mod_lt _ (by omega)
    have hsq : s.val = f + r * 8 → b s = some ((b ⟨f + r * 8, hidx⟩).getD ⟨.pawn, .white, false⟩) ∨ True := fun _ => Or.inr trivial
    rw [writeFiles]
    cases hb : bGet b (f + r * 8) with
    | none =>
      simp only [hb]
      rw [ih (f + 1) (by omega) b0 s]
      have hbs : s.val = f + r * 8 → b s = none := by
        intro hv
        have hse : s = ⟨f + r * 8, hidx⟩ := Fin.ext hv
        rw [hse, ← bGet_lt b _ hidx, hb]
      by_cases h1 : s.val / 8 = r
      · by_cases h2 : f + 1 ≤ s.val % 8
        · rw [if_pos ⟨h1, h2⟩, if_pos ⟨h1, by omega⟩]
        · by_cases h3 : f ≤ s.val % 8
          · have hv : s.val = f + r * 8 := by omega
            rw [if_neg (by omega), if_pos ⟨h1, h3⟩, hbs hv]
          · rw [if_neg (fun hc => h3 (Nat.le_of_succ_le hc.2)), if_neg (fun hc => h3 hc.2)]
      · rw [if_neg (fun hc => h1 hc.1), if_neg (fun hc => h1 hc.1)]
    | some p =>
      simp only [hb]
      rw [ih (f + 1) (by omega) (bSet b0 (f + r * 8) (dePromote p)) s]
      have hbs : s.val = f + r * 8 → b s = some p := by
        intro hv
        have hse : s = ⟨f + r * 8, hidx⟩ := Fin.ext hv
        rw [hse, ← bGet_lt b _ hidx, hb]
      by_cases hv : s.val = f + r * 8
      · have hmodf : s.val % 8 = f := by omega
        have hdiv : s.val / 8 = r := by omega
        rw [if_neg (by omega), if_pos ⟨hdiv, by omega⟩, hbs hv, bSet_apply, if_pos hv]
      · have hne : bSet b0 (f + r * 8) (dePromote p) s = b0 s := by
          rw [bSet_apply, if_neg hv]
        rw [hne]
        by_cases h1 : s.val / 8 = r
        · by_cases h2 : f ≤ s.val % 8
          · have h2b : f + 1 ≤ s.val % 8 := by omega
            rw [if_pos ⟨h1, h2b⟩, if_pos ⟨h1, h2⟩]
          · rw [if_neg (fun hc => h2 (by omega)), if_neg (fun hc => h2 hc.2)]
        · rw [if_neg (fun hc => h1 hc.1), if_neg (fun hc => h1 hc.1)]

theorem writeRanks_apply (b : Board) :
    ∀ (r : Nat), r ≤ 7 → ∀ (b0 : Board) (s : Square),
      writeRanks b r b0 s =
        if s.val / 8 ≤ r then
          (match b s with
           | some p => some (dePromote p)
           | none => b0 s)
        else b0 s := by
  intro r
  induction r with
  | zero =>
    intro _ b0 s
    rw [writeRanks, writeFiles_apply b 0 (by omega) 8 0 rfl b0 s]
    have hiff : (s.val / 8 = 0 ∧ 0 ≤ s.val % 8) ↔ s.val / 8 ≤ 0 := by omega
    rw [if_congr hiff rfl rfl]
  | succ r ih =>
    intro hr b0 s
    rw [writeRanks, ih (by omega), writeFiles_apply b (r + 1) hr 8 0 rfl b0 s]
    by_cases h1 : s.val / 8 ≤ r
    · rw [if_pos h1,
        if_neg (show ¬(s.val / 8 = r + 1 ∧ 0 ≤ s.val % 8) by omega),
        if_pos (show s.val / 8 ≤ r + 1 by omega)]
    · by_cases h2 : s.val / 8 = r + 1
      · rw [if_neg h1,
          if_pos (show s.val / 8 = r + 1 ∧ 0 ≤ s.val % 8 from ⟨h2, by omega⟩),
          if_pos (show s.val / 8 ≤ r + 1 by omega)]
      · rw [if_neg h1,
          if_neg (show ¬(s.val / 8 = r + 1 ∧ 0 ≤ s.val % 8) from fun hc => h2 hc.1),
          if_neg (show ¬(s.val / 8 ≤ r + 1) by omega)]

theorem intercalate_one (sep x : List Char) : List.intercalate sep [x] = x := by
  simp [List.intercalate]

theorem intercalate_cons2 (sep x y : List Char) (ys : List (List Char)) :
    List.intercalate sep (x :: y :: ys) =
      x ++ (sep ++ List.intercalate sep (y :: ys)) := by
  simp [List.intercalate, List.intersperse]

theorem countdown_ne_nil (r : Nat) : countdown r ≠ [] := by
  cases r <;> simp [countdown]

theorem parse_ranks (b : Board) :
    ∀ (r : Nat), r ≤ 7 → ∀ (b0 : Board),
      parseBoardAux (List.intercalate ['/'] ((countdown r).map
          (fun rr => emitFiles b false rr 8 0 0))) (Int.ofNat r) 0 b0 =
        .ok (writeRanks b r b0) := by
  intro r
  induction r with
  | zero =>
    intro _ b0
    rw [countdown, List.map_cons, List.map_nil, intercalate_one]
    have h := parse_emit b 0 8 0 0 b0 [] rfl (by omega) (by simp)
    rw [List.append_nil] at h
    rw [h, parseBoardAux_nil, if_neg (by simp), writeRanks]
  | succ r ih =>
    intro hr b0
    rw [countdown, List.map_cons]
    cases hcd : countdown r with
    | nil => exact absurd hcd (countdown_ne_nil r)
    | cons z zs =>
      rw [List.map_cons, intercalate_cons2, List.singleton_append]
      have h := parse_emit b (r + 1) 8 0 0 b0
        ('/' :: List.intercalate ['/'] (emitFiles b false z 8 0 0 ::
          List.map (fun rr => emitFiles b false rr 8 0 0) zs)) rfl (by omega) (by simp)
      rw [h, parseBoardAux_slash,
        show (Int.ofNat (r + 1)) - 1 = Int.ofNat r by simp [Int.ofNat_succ]]
      have h2 := ih (by omega) (writeFiles b (r + 1) 8 0 b0)
      rw [hcd, List.map_cons] at h2
      rw [h2, writeRanks]

theorem parseBoardFen_makeBoardFen (b : Board)
    (hp : ∀ (sq : Square) (p : Piece), b sq = some p → p.promoted = false) :
    parseBoardFen (makeBoardFen b false) = .ok b := by
  rw [parseBoardFen, makeBoardFen]
  have h := parse_ranks b 7 (le_refl 7) Board.emptyB
  rw [show Int.ofNat 7 = (7 : Int) from rfl] at h
  rw [h]
  congr 1
  funext s
  rw [writeRanks_apply b 7 (le_refl 7) Board.emptyB s,
    if_pos (by omega : s.val / 8 ≤ 7)]
  cases hbs : b s with
  | none => rfl
  | some p =>
    have := hp s p hbs
    show some (dePromote p) = some p
    rw [show dePromote p = p from by
      obtain ⟨rl, col, pr⟩ := p
      simp only [dePromote]
      simp at this
      rw [this]]

/-! ## C1: castling round trip -/

theorem scanFiles_skip (b : Board) (color : Color) (rank f : Nat) (fs : List Nat)
    (h : ∀ p, bGet b (f + 8 * rank) = some p →
      ¬(p.color = color ∧ (p.role = .king ∨ p.role = .rook))) :
    scanFiles b color rank (f :: fs) = scanFiles b color rank fs := by
  rw [scanFiles]
  cases hb : bGet b (f + 8 * rank) with
  | none => rfl
  | some p =>
    have hki : ¬(p.color = color ∧ p.role = Role.king) := fun hc2 => h p hb ⟨hc2.1, Or.inl hc2.2⟩
    have hro : ¬(p.color = color ∧ p.role = Role.rook) := fun hc2 => h p hb ⟨hc2.1, Or.inr hc2.2⟩
    show (if p.color = color ∧ p.role = Role.king then none
      else if p.color = color ∧ p.role = Role.rook then
        (if h2 : f + 8 * rank < 64 then some (⟨f + 8 * rank, h2⟩ : Square) else none)
      else scanFiles b color rank fs) = scanFiles b color rank fs
    rw [if_neg hki, if_neg hro]

theorem scanFiles_hit (b : Board) (color : Color) (rank f : Nat) (fs : List Nat) (p : Piece)
    (hb : bGet b (f + 8 * rank) = some p) (hc : p.color = color) (hr : p.role = .rook)
    (h64 : f + 8 * rank < 64) :
    scanFiles b color rank (f :: fs) = some ⟨f + 8 * rank, h64⟩ := by
  rw [scanFiles]
  simp only [hb]
  rw [if_neg (fun hk => by rw [hr] at hk; exact absurd hk.2 (by decide)),
    if_pos ⟨hc, hr⟩, dif_pos h64]

theorem scan_asc (b : Board) (color : Color) (rank rf : Nat) (p : Piece)
    (hb : bGet b (rf + 8 * rank) = some p) (hc : p.color = color) (hr : p.role = .rook)
    (h64 : rf + 8 * rank < 64)
    (hskip : ∀ f2, f2 < rf → ∀ q, bGet b (f2 + 8 * rank) = some q →
      ¬(q.color = color ∧ (q.role = .king ∨ q.role = .rook))) :
    ∀ (k lo : Nat), lo ≤ rf → rf < lo + k →
      scanFiles b color rank (List.range' lo k) = some ⟨rf + 8 * rank, h64⟩ := by
  intro k
  induction k with
  | zero => intro lo h1 h2; omega
  | succ k ih =>
    intro lo h1 h2
    rw [List.range'_succ]
    by_cases hlo : lo = rf
    · subst hlo
      exact scanFiles_hit b color rank lo _ p hb hc hr h64
    · rw [scanFiles_skip b color rank lo _ (hskip lo (by omega))]
      exact ih (lo + 1) (by omega) (by omega)

theorem scan_desc (b : Board) (color : Color) (rank rf : Nat) (p : Piece)
    (hb : bGet b (rf + 8 * rank) = some p) (hc : p.color = color) (hr : p.role = .rook)
    (h64 : rf + 8 * rank < 64)
    (hskip : ∀ f2, rf < f2 → f2 ≤ 7 → ∀ q, bGet b (f2 + 8 * rank) = some q →
      ¬(q.color = color ∧ (q.role = .king ∨ q.role = .rook))) :
    ∀ (k : Nat), rf < k → k ≤ 8 →
      scanFiles b color rank (List.range' 0 k).reverse = some ⟨rf + 8 * rank, h64⟩ := by
  intro k
  induction k with
  | zero => intro h1 _; omega
  | succ k ih =>
    intro h1 h2
    rw [List.range'_concat, List.reverse_append, List.reverse_singleton,
      List.singleton_append, show 0 + 1 * k = k by omega]
    by_cases hk : k = rf
    · subst hk
      exact scanFiles_hit b color rank k _ p hb hc hr h64
    · rw [scanFiles_skip b color rank k _ (hskip k (by omega) (by omega))]
      exact ih (by omega) (by omega)

theorem castlingCharSpec_upper (rf : Nat) (h : rf < 8) :
    castlingCharSpec (fileLettersUpper.getD rf 'A') = (.white, 0, [rf]) := by
  interval_cases rf <;> rfl

theorem castlingCharSpec_lower (rf : Nat) (h : rf < 8) :
    castlingCharSpec (fileLetters.getD rf 'A') = (.black, 7, [rf]) := by
  interval_cases rf <;> rfl

theorem mem_candidates (b : Board) (color : Color) (s : Square) :
    s ∈ candidates b color ↔
      isColorRook b color s = true ∧ squareRank s.val = backrankOf color := by
  simp [candidates]

theorem isColorRook_elim (b : Board) (color : Color) (s : Square)
    (h : isColorRook b color s = true) :
    ∃ p, b s = some p ∧ p.color = color ∧ p.role = .rook := by
  rw [isColorRook] at h
  cases hbs : b s with
  | none => rw [hbs] at h; simp at h
  | some p =>
    rw [hbs] at h
    simp only [Bool.and_eq_true, decide_eq_true_eq] at h
    exact ⟨p, rfl, h⟩

theorem isColorKing_elim (b : Board) (color : Color) (s : Square)
    (h : isColorKing b color s = true) :
    ∃ p, b s = some p ∧ p.color = color ∧ p.role = .king := by
  rw [isColorKing] at h
  cases hbs : b s with
  | none => rw [hbs] at h; simp at h
  | some p =>
    rw [hbs] at h
    simp only [Bool.and_eq_true, decide_eq_true_eq] at h
    exact ⟨p, rfl, h⟩

theorem isColorKing_intro (b : Board) (color : Color) (s : Square) (p : Piece)
    (hbs : b s = some p) (hc : p.color = color) (hr : p.role = .king) :
    isColorKing b color s = true := by
  rw [isColorKing, hbs]
  simp [hc, hr]

theorem isColorRook_intro (b : Board) (color : Color) (s : Square) (p : Piece)
    (hbs : b s = some p) (hc : p.color = color) (hr : p.role = .rook) :
    isColorRook b color s = true := by
  rw [isColorRook, hbs]
  simp [hc, hr]

theorem kingOf_isKing (b : Board) (color : Color) (k : Square)
    (hk : kingOf b color = some k) : isColorKing b color k = true := by
  rw [kingOf] at hk
  have := Finset.mem_of_min hk
  simpa using this

theorem and7_mod8 : ∀ v : Fin 64, v.val &&& 7 = v.val % 8 := by decide

theorem bGet_fin (b : Board) (s : Square) : bGet b s.val = b s := by
  rw [bGet, dif_pos s.isLt]

theorem charForRook_false (b : Board) (color : Color) (rook : Square) :
    charForRook b color false rook =
      (match kingOf b color with
       | some k =>
         if (candidates b color).min = some rook ∧ rook < k then
           (if color = .white then 'Q' else 'q')
         else if (candidates b color).max = some rook ∧ k < rook then
           (if color = .white then 'K' else 'k')
         else (if color = .white then fileLettersUpper else fileLetters).getD
           (rook.val &&& 7) 'A'
       | none => (if color = .white then fileLettersUpper else fileLetters).getD
           (rook.val &&& 7) 'A') := rfl

theorem charForRook_decode (b : Board) (color : Color) (rook : Square)
    (hcand : rook ∈ candidates b color)
    (hking : ∀ s1 s2 : Square, isColorKing b color s1 = true →
      isColorKing b color s2 = true → s1 = s2) :
    castlingCharSquare b (charForRook b color false rook) = some rook := by
  obtain ⟨hrook, hrank⟩ := (mem_candidates b color rook).mp hcand
  obtain ⟨p, hbs, hpc, hpr⟩ := isColorRook_elim b color rook hrook
  rw [squareRank_eq_div] at hrank
  have hdm := Nat.div_add_mod rook.val 8
  have hmod : rook.val % 8 < 8 := Nat.mod_lt _ (by omega)
  have hbr : backrankOf color ≤ 7 := by cases color <;> simp [backrankOf]
  have hval : rook.val % 8 + 8 * backrankOf color = rook.val := by
    cases color <;> simp only [backrankOf] at hrank ⊢ <;> omega
  have hgetrook : bGet b (rook.val % 8 + 8 * backrankOf color) = some p := by
    rw [hval, bGet_fin, hbs]
  have h64 : rook.val % 8 + 8 * backrankOf color < 64 := by rw [hval]; exact rook.isLt
  have hfb : castlingCharSquare b
      ((if color = .white then fileLettersUpper else fileLetters).getD
        (rook.val &&& 7) 'A') = some rook := by
    rw [and7_mod8 rook]
    cases color with
    | white =>
      rw [if_pos rfl, castlingCharSquare, castlingCharSpec_upper _ hmod]
      have hb0 : bGet b (rook.val % 8 + 8 * 0) = some p := by
        simpa [backrankOf] using hgetrook
      have h640 : rook.val % 8 + 8 * 0 < 64 := by simpa [backrankOf] using h64
      exact (scanFiles_hit b .white 0 (rook.val % 8) [] p hb0 hpc hpr h640).trans
        (congrArg some (Fin.ext (by
          show rook.val % 8 + 8 * 0 = rook.val
          simp only [backrankOf] at hval
          omega)))
    | black =>
      rw [if_neg (by decide), castlingCharSquare, castlingCharSpec_lower _ hmod]
      have hb7 : bGet b (rook.val % 8 + 8 * 7) = some p := by
        simpa [backrankOf] using hgetrook
      have h647 : rook.val % 8 + 8 * 7 < 64 := by simpa [backrankOf] using h64
      exact (scanFiles_hit b .black 7 (rook.val % 8) [] p hb7 hpc hpr h647).trans
        (congrArg some (Fin.ext (by
          show rook.val % 8 + 8 * 7 = rook.val
          simp only [backrankOf] at hval
          omega)))
  cases hk : kingOf b color with
  | none =>
    have hchar : charForRook b color false rook =
        (if color = .white then fileLettersUpper else fileLetters).getD
          (rook.val &&& 7) 'A' := by
      rw [charForRook_false]
      simp only [hk]
    rw [hchar]
    exact hfb
  | some k =>
    have hkk : isColorKing b color k = true := kingOf_isKing b color k hk
    by_cases hQ : (candidates b color).min = some rook ∧ rook < k
    · have hchar : charForRook b color false rook = (if color = .white then 'Q' else 'q') := by
        rw [charForRook_false]
        simp only [hk]
        rw [if_pos hQ]
      rw [hchar]
      have hkval : rook.val < k.val := hQ.2
      have hskip : ∀ f2, f2 < rook.val % 8 → ∀ q,
          bGet b (f2 + 8 * backrankOf color) = some q →
          ¬(q.color = color ∧ (q.role = .king ∨ q.role = .rook)) := by
        intro f2 hf2 q hq hcon
        have hlt64 : f2 + 8 * backrankOf color < 64 := by omega
        have hbsq : b ⟨f2 + 8 * backrankOf color, hlt64⟩ = some q :=
          (bGet_fin b ⟨f2 + 8 * backrankOf color, hlt64⟩).symm.trans hq
        have hvlt : f2 + 8 * backrankOf color < rook.val := by omega
        rcases hcon.2 with hrole | hrole
        · have hks : isColorKing b color ⟨f2 + 8 * backrankOf color, hlt64⟩ = true :=
            isColorKing_intro b color _ q hbsq hcon.1 hrole
          have hkeq := hking _ _ hks hkk
          have hkv : k.val = f2 + 8 * backrankOf color := by rw [← hkeq]
          omega
        · have hrs : isColorRook b color ⟨f2 + 8 * backrankOf color, hlt64⟩ = true :=
            isColorRook_intro b color _ q hbsq hcon.1 hrole
          have hmem : (⟨f2 + 8 * backrankOf color, hlt64⟩ : Square) ∈ candidates b color := by
            rw [mem_candidates]
            refine ⟨hrs, ?_⟩
            rw [squareRank_eq_div]
            show (f2 + 8 * backrankOf color) / 8 = backrankOf color
            omega
          have hle := Finset.min_le hmem
          rw [hQ.1] at hle
          have hle2 : rook ≤ ⟨f2 + 8 * backrankOf color, hlt64⟩ := WithTop.coe_le_coe.mp hle
          have hle3 : rook.val ≤ f2 + 8 * backrankOf color := hle2
          omega
      cases color with
      | white =>
        rw [if_pos rfl]
        rw [show castlingCharSquare b 'Q' =
          scanFiles b .white 0 (List.range' 0 8) from rfl]
        have hb0 : bGet b (rook.val % 8 + 8 * 0) = some p := by
          simpa [backrankOf] using hgetrook
        have h640 : rook.val % 8 + 8 * 0 < 64 := by simpa [backrankOf] using h64
        have hskip0 : ∀ f2, f2 < rook.val % 8 → ∀ q, bGet b (f2 + 8 * 0) = some q →
            ¬(q.color = .white ∧ (q.role = .king ∨ q.role = .rook)) := by
          intro f2 hf2 q hq
          exact hskip f2 hf2 q (by simpa [backrankOf] using hq)
        exact (scan_asc b .white 0 (rook.val % 8) p hb0 hpc hpr h640 hskip0 8 0
          (by omega) (by omega)).trans
          (congrArg some (Fin.ext (by
          show rook.val % 8 + 8 * 0 = rook.val
          simp only [backrankOf] at hval
          omega)))
      | black =>
        rw [if_neg (by decide)]
        rw [show castlingCharSquare b 'q' =
          scanFiles b .black 7 (List.range' 0 8) from rfl]
        have hb7 : bGet b (rook.val % 8 + 8 * 7) = some p := by
          simpa [backrankOf] using hgetrook
        have h647 : rook.val % 8 + 8 * 7 < 64 := by simpa [backrankOf] using h64
        have hskip7 : ∀ f2, f2 < rook.val % 8 → ∀ q, bGet b (f2 + 8 * 7) = some q →
            ¬(q.color = .black ∧ (q.role = .king ∨ q.role = .rook)) := by
          intro f2 hf2 q hq
          exact hskip f2 hf2 q (by simpa [backrankOf] using hq)
        exact (scan_asc b .black 7 (rook.val % 8) p hb7 hpc hpr h647 hskip7 8 0
          (by omega) (by omega)).trans
          (congrArg some (Fin.ext (by
          show rook.val % 8 + 8 * 7 = rook.val
          simp only [backrankOf] at hval
          omega)))
    · by_cases hK : (candidates b color).max = some rook ∧ k < rook
      · have hchar : charForRook b color false rook =
            (if color = .white then 'K' else 'k') := by
          rw [charForRook_false]
          simp only [hk]
          rw [if_neg hQ, if_pos hK]
        rw [hchar]
        have hkval : k.val < rook.val := hK.2
        have hskip : ∀ f2, rook.val % 8 < f2 → f2 ≤ 7 → ∀ q,
            bGet b (f2 + 8 * backrankOf color) = some q →
            ¬(q.color = color ∧ (q.role = .king ∨ q.role = .rook)) := by
          intro f2 hf2 hf27 q hq hcon
          have hlt64 : f2 + 8 * backrankOf color < 64 := by omega
          have hbsq : b ⟨f2 + 8 * backrankOf color, hlt64⟩ = some q :=
            (bGet_fin b ⟨f2 + 8 * backrankOf color, hlt64⟩).symm.trans hq
          have hvgt : rook.val < f2 + 8 * backrankOf color := by omega
          rcases hcon.2 with hrole | hrole
          · have hks : isColorKing b color ⟨f2 + 8 * backrankOf color, hlt64⟩ = true :=
              isColorKing_intro b color _ q hbsq hcon.1 hrole
            have hkeq := hking _ _ hks hkk
            have hkv : k.val = f2 + 8 * backrankOf color := by rw [← hkeq]
            omega
          · have hrs : isColorRook b color ⟨f2 + 8 * backrankOf color, hlt64⟩ = true :=
              isColorRook_intro b color _ q hbsq hcon.1 hrole
            have hmem : (⟨f2 + 8 * backrankOf color, hlt64⟩ : Square) ∈ candidates b color := by
              rw [mem_candidates]
              refine ⟨hrs, ?_⟩
              rw [squareRank_eq_div]
              show (f2 + 8 * backrankOf color) / 8 = backrankOf color
              omega
            have hle := Finset.le_max hmem
            rw [hK.1] at hle
            have hle2 : (⟨f2 + 8 * backrankOf color, hlt64⟩ : Square) ≤ rook :=
              WithBot.coe_le_coe.mp hle
            have hle3 : f2 + 8 * backrankOf color ≤ rook.val := hle2
            omega
        cases color with
        | white =>
          rw [if_pos rfl]
          rw [show castlingCharSquare b 'K' =
            scanFiles b .white 0 (List.range' 0 8).reverse from rfl]
          have hb0 : bGet b (rook.val % 8 + 8 * 0) = some p := by
            simpa [backrankOf] using hgetrook
          have h640 : rook.val % 8 + 8 * 0 < 64 := by simpa [backrankOf] using h64
          have hskip0 : ∀ f2, rook.val % 8 < f2 → f2 ≤ 7 → ∀ q,
              bGet b (f2 + 8 * 0) = some q →
              ¬(q.color = .white ∧ (q.role = .king ∨ q.role = .rook)) := by
            intro f2 hf2 hf27 q hq
            exact hskip f2 hf2 hf27 q (by simpa [backrankOf] using hq)
          exact (scan_desc b .white 0 (rook.val % 8) p hb0 hpc hpr h640 hskip0 8
            (by omega) (by omega)).trans
            (congrArg some (Fin.ext (by
          show rook.val % 8 + 8 * 0 = rook.val
          simp only [backrankOf] at hval
          omega)))
        | black =>
          rw [if_neg (by decide)]
          rw [show castlingCharSquare b 'k' =
            scanFiles b .black 7 (List.range' 0 8).reverse from rfl]
          have hb7 : bGet b (rook.val % 8 + 8 * 7) = some p := by
            simpa [backrankOf] using hgetrook
          have h647 : rook.val % 8 + 8 * 7 < 64 := by simpa [backrankOf] using h64
          have hskip7 : ∀ f2, rook.val % 8 < f2 → f2 ≤ 7 → ∀ q,
              bGet b (f2 + 8 * 7) = some q →
              ¬(q.color = .black ∧ (q.role = .king ∨ q.role = .rook)) := by
            intro f2 hf2 hf27 q hq
            exact hskip f2 hf2 hf27 q (by simpa [backrankOf] using hq)
          exact (scan_desc b .black 7 (rook.val % 8) p hb7 hpc hpr h647 hskip7 8
            (by omega) (by omega)).trans
            (congrArg some (Fin.ext (by
          show rook.val % 8 + 8 * 7 = rook.val
          simp only [backrankOf] at hval
          omega)))
      · have hchar : charForRook b color false rook =
            (if color = .white then fileLettersUpper else fileLetters).getD
              (rook.val &&& 7) 'A' := by
          rw [charForRook_false]
          simp only [hk]
          rw [if_neg hQ, if_neg hK]
        rw [hchar]
        exact hfb

theorem upper_class (i : Nat) (h : i ≤ 7) :
    isWhiteCastlingChar (fileLettersUpper.getD i 'A') = true := by
  interval_cases i <;> rfl

theorem lower_class (i : Nat) (h : i ≤ 7) :
    isBlackCastlingChar (fileLetters.getD i 'A') = true := by
  interval_cases i <;> rfl

theorem charForRook_white_class (b : Board) (rook : Square) :
    isWhiteCastlingChar (charForRook b .white false rook) = true := by
  have hle : rook.val &&& 7 ≤ 7 := Nat.and_le_right
  rw [charForRook_false]
  cases hk : kingOf b .white with
  | none => simp only [hk]; exact upper_class _ hle
  | some k =>
    simp only [hk,
      show (if Color.white = Color.white then 'Q' else 'q') = 'Q' from rfl,
      show (if Color.white = Color.white then 'K' else 'k') = 'K' from rfl,
      show (if Color.white = Color.white then fileLettersUpper else fileLetters) =
        fileLettersUpper from rfl]
    split_ifs
    · rfl
    · rfl
    · exact upper_class _ hle

theorem charForRook_black_class (b : Board) (rook : Square) :
    isBlackCastlingChar (charForRook b .black false rook) = true := by
  have hle : rook.val &&& 7 ≤ 7 := Nat.and_le_right
  rw [charForRook_false]
  cases hk : kingOf b .black with
  | none => simp only [hk]; exact lower_class _ hle
  | some k =>
    simp only [hk,
      show (if Color.black = Color.white then 'Q' else 'q') = 'q' from rfl,
      show (if Color.black = Color.white then 'K' else 'k') = 'k' from rfl,
      show (if Color.black = Color.white then fileLettersUpper else fileLetters) =
        fileLetters from rfl]
    split_ifs
    · rfl
    · rfl
    · exact lower_class _ hle

theorem black_not_white (c : Char) (h : isBlackCastlingChar c = true) :
    isWhiteCastlingChar c = false := by
  rw [isBlackCastlingChar, contains_iff_mem] at h
  simp only [List.mem_cons, List.not_mem_nil, or_false] at h
  rcases h with rfl | rfl | rfl | rfl | rfl | rfl | rfl | rfl | rfl | rfl <;> rfl

theorem white_char_not_dash (c : Char) (h : isWhiteCastlingChar c = true) : c ≠ '-' := by
  rw [isWhiteCastlingChar, contains_iff_mem] at h
  simp only [List.mem_cons, List.not_mem_nil, or_false] at h
  rcases h with rfl | rfl | rfl | rfl | rfl | rfl | rfl | rfl | rfl | rfl <;> decide

theorem black_char_not_dash (c : Char) (h : isBlackCastlingChar c = true) : c ≠ '-' := by
  rw [isBlackCastlingChar, contains_iff_mem] at h
  simp only [List.mem_cons, List.not_mem_nil, or_false] at h
  rcases h with rfl | rfl | rfl | rfl | rfl | rfl | rfl | rfl | rfl | rfl <;> decide

theorem castlingFold_insert (b : Board) (g : Square → Char) :
    ∀ (l : List Square) (acc : Finset Square),
      (∀ x ∈ l, castlingCharSquare b (g x) = some x) →
      List.foldl (fun acc c =>
        match castlingCharSquare b c with
        | some sq => insert sq acc
        | none => acc) acc (l.map g) = acc ∪ l.toFinset := by
  intro l
  induction l with
  | nil => intro acc _; simp
  | cons x xs ih =>
    intro acc hall
    rw [List.map_cons, List.foldl_cons]
    simp only [hall x (List.mem_cons_self x xs)]
    rw [ih _ (fun y hy => hall y (List.mem_cons_of_mem _ hy))]
    ext z
    simp only [Finset.mem_union, Finset.mem_insert, List.toFinset_cons, List.mem_toFinset]
    tauto

theorem mem_sortDesc (s : Finset Square) (x : Square) : x ∈ sortDesc s ↔ x ∈ s := by
  simp [sortDesc, List.mem_reverse, List.mem_filter, List.mem_finRange]

theorem sortDesc_nodup (s : Finset Square) : (sortDesc s).Nodup := by
  rw [sortDesc, List.nodup_reverse]
  exact (List.nodup_finRange 64).filter _

theorem sortDesc_toFinset (s : Finset Square) : (sortDesc s).toFinset = s := by
  ext x
  rw [List.mem_toFinset, mem_sortDesc]

theorem sortDesc_length (s : Finset Square) : (sortDesc s).length = s.card := by
  conv_rhs => rw [← sortDesc_toFinset s]
  rw [List.toFinset_card_of_nodup (sortDesc_nodup s)]

theorem sortDesc_empty : sortDesc ∅ = [] := by
  have := sortDesc_length ∅
  simp only [Finset.card_empty] at this
  exact List.length_eq_zero.mp this

theorem takeWhile_append_all (p : Char → Bool) :
    ∀ (A B : List Char), (∀ a ∈ A, p a = true) →
      (A ++ B).takeWhile p = A ++ B.takeWhile p := by
  intro A
  induction A with
  | nil => intro B _; simp
  | cons a A ih =>
    intro B hall
    rw [List.cons_append, List.takeWhile_cons, if_pos (hall a (List.mem_cons_self a A)),
      List.cons_append, ih B (fun x hx => hall x (List.mem_cons_of_mem a hx))]

theorem takeWhile_neg_head (p : Char → Bool) (c : Char) (cs : List Char)
    (h : p c = false) : (c :: cs).takeWhile p = [] := by
  rw [List.takeWhile_cons, if_neg (by simp [h])]

theorem makeCastlingFen_eq (b : Board) (uR : SquareSet) :
    makeCastlingFen b uR false =
      (if ((sortDesc (uR ∩ candidates b .white)).map (charForRook b .white false) ++
          (sortDesc (uR ∩ candidates b .black)).map (charForRook b .black false)) = []
       then ['-']
       else (sortDesc (uR ∩ candidates b .white)).map (charForRook b .white false) ++
         (sortDesc (uR ∩ candidates b .black)).map (charForRook b .black false)) := by
  rw [makeCastlingFen]
  simp [COLORS]

theorem parseCastlingFen_dash (b : Board) : parseCastlingFen b ['-'] = .ok ∅ := by
  rw [parseCastlingFen, if_pos rfl]

theorem parseCastlingFen_makeCastlingFen (b : Board) (uR : SquareSet)
    (hinv : ∀ sq ∈ uR, sq ∈ candidates b .white ∪ candidates b .black)
    (hcardW : (uR ∩ candidates b .white).card ≤ 2)
    (hcardB : (uR ∩ candidates b .black).card ≤ 2)
    (hkingW : ∀ s1 s2 : Square, isColorKing b .white s1 = true →
      isColorKing b .white s2 = true → s1 = s2)
    (hkingB : ∀ s1 s2 : Square, isColorKing b .black s1 = true →
      isColorKing b .black s2 = true → s1 = s2) :
    parseCastlingFen b (makeCastlingFen b uR false) = .ok uR := by
  have hAB : uR ∩ candidates b .white ∪ uR ∩ candidates b .black = uR := by
    ext sq
    constructor
    · intro h
      rcases Finset.mem_union.mp h with h2 | h2
      · exact (Finset.mem_inter.mp h2).1
      · exact (Finset.mem_inter.mp h2).1
    · intro h
      rcases Finset.mem_union.mp (hinv sq h) with h2 | h2
      · exact Finset.mem_union_left _ (Finset.mem_inter.mpr ⟨h, h2⟩)
      · exact Finset.mem_union_right _ (Finset.mem_inter.mpr ⟨h, h2⟩)
  have hdecW : ∀ x ∈ sortDesc (uR ∩ candidates b .white),
      castlingCharSquare b (charForRook b .white false x) = some x := by
    intro x hx
    exact charForRook_decode b .white x
      ((Finset.mem_inter.mp ((mem_sortDesc _ x).mp hx)).2) hkingW
  have hdecB : ∀ x ∈ sortDesc (uR ∩ candidates b .black),
      castlingCharSquare b (charForRook b .black false x) = some x := by
    intro x hx
    exact charForRook_decode b .black x
      ((Finset.mem_inter.mp ((mem_sortDesc _ x).mp hx)).2) hkingB
  have hclsW : ∀ c ∈ (sortDesc (uR ∩ candidates b .white)).map (charForRook b .white false),
      isWhiteCastlingChar c = true := by
    intro c hc
    obtain ⟨x, _, rfl⟩ := List.mem_map.mp hc
    exact charForRook_white_class b x
  have hclsB : ∀ c ∈ (sortDesc (uR ∩ candidates b .black)).map (charForRook b .black false),
      isBlackCastlingChar c = true := by
    intro c hc
    obtain ⟨x, _, rfl⟩ := List.mem_map.mp hc
    exact charForRook_black_class b x
  rw [makeCastlingFen_eq]
  by_cases hnil : ((sortDesc (uR ∩ candidates b .white)).map (charForRook b .white false) ++
      (sortDesc (uR ∩ candidates b .black)).map (charForRook b .black false)) = []
  · rw [if_pos hnil, parseCastlingFen_dash]
    have hW : (uR ∩ candidates b .white) = ∅ := by
      have := congrArg List.length hnil
      simp only [List.length_append, List.length_map, sortDesc_length,
        List.length_nil] at this
      exact Finset.card_eq_zero.mp (by omega)
    have hB : (uR ∩ candidates b .black) = ∅ := by
      have := congrArg List.length hnil
      simp only [List.length_append, List.length_map, sortDesc_length,
        List.length_nil] at this
      exact Finset.card_eq_zero.mp (by omega)
    rw [show uR = uR ∩ candidates b .white ∪ uR ∩ candidates b .black from hAB.symm,
      hW, hB]
    simp
  · rw [if_neg hnil]
    have hnotdash : ((sortDesc (uR ∩ candidates b .white)).map (charForRook b .white false) ++
        (sortDesc (uR ∩ candidates b .black)).map (charForRook b .black false)) ≠ ['-'] := by
      intro hcon
      have hmem : '-' ∈ ((sortDesc (uR ∩ candidates b .white)).map
          (charForRook b .white false) ++
          (sortDesc (uR ∩ candidates b .black)).map (charForRook b .black false)) := by
        rw [hcon]
        exact List.mem_cons_self _ _
      rcases List.mem_append.mp hmem with h2 | h2
      · exact white_char_not_dash '-' (hclsW '-' h2) rfl
      · exact black_char_not_dash '-' (hclsB '-' h2) rfl
    have htake : ((sortDesc (uR ∩ candidates b .white)).map (charForRook b .white false) ++
        (sortDesc (uR ∩ candidates b .black)).map
          (charForRook b .black false)).takeWhile isWhiteCastlingChar =
        (sortDesc (uR ∩ candidates b .white)).map (charForRook b .white false) := by
      rw [takeWhile_append_all _ _ _ hclsW]
      cases hBl : (sortDesc (uR ∩ candidates b .black)).map (charForRook b .black false) with
      | nil => simp
      | cons c cs =>
        rw [takeWhile_neg_head _ c cs
          (black_not_white c (hclsB c (by rw [hBl]; exact List.mem_cons_self c cs)))]
        simp
    have hlenW : ((sortDesc (uR ∩ candidates b .white)).map
        (charForRook b .white false)).length ≤ 2 := by
      rw [List.length_map, sortDesc_length]
      exact hcardW
    have hlenB : ((sortDesc (uR ∩ candidates b .black)).map
        (charForRook b .black false)).length ≤ 2 := by
      rw [List.length_map, sortDesc_length]
      exact hcardB
    have hregex : castlingRegexOk
        ((sortDesc (uR ∩ candidates b .white)).map (charForRook b .white false) ++
          (sortDesc (uR ∩ candidates b .black)).map (charForRook b .black false)) = true := by
      rw [castlingRegexOk]
      rw [htake, List.drop_left]
      simp only [Bool.and_eq_true, decide_eq_true_eq]
      refine ⟨⟨hlenW, hlenB⟩, ?_⟩
      rw [List.all_eq_true]
      exact hclsB
    have hfold : List.foldl (fun acc c =>
        match castlingCharSquare b c with
        | some sq => insert sq acc
        | none => acc) ∅
        ((sortDesc (uR ∩ candidates b .white)).map (charForRook b .white false) ++
          (sortDesc (uR ∩ candidates b .black)).map (charForRook b .black false)) = uR := by
      rw [List.foldl_append, castlingFold_insert b _ _ ∅ hdecW,
        castlingFold_insert b _ _ _ hdecB, sortDesc_toFinset, sortDesc_toFinset,
        Finset.empty_union]
      exact hAB
    rw [parseCastlingFen, if_neg hnotdash, if_neg (not_not_intro hregex), hfold]

/-! ## C1: field tokens and splitting the formatted FEN -/

theorem splitOnChar_intercalate :
    ∀ (fields : List (List Char)), fields ≠ [] → (∀ f ∈ fields, ' ' ∉ f) →
      splitOnChar ' ' (List.intercalate [' '] fields) = fields := by
  intro fields
  induction fields with
  | nil => intro h _; exact absurd rfl h
  | cons x xs ih =>
    intro _ hall
    cases xs with
    | nil =>
      rw [intercalate_one]
      exact splitOnChar_not_mem ' ' x (hall x (List.mem_cons_self x []))
    | cons y ys =>
      rw [intercalate_cons2, List.singleton_append,
        splitOnChar_append_sep ' ' x _ (hall x (List.mem_cons_self x (y :: ys))),
        ih (by simp) (fun f hf => hall f (List.mem_cons_of_mem x hf))]

theorem mem_intercalate_sep (sep : Char) :
    ∀ (ls : List (List Char)) (ch : Char), ch ∈ List.intercalate [sep] ls →
      ch = sep ∨ ∃ l ∈ ls, ch ∈ l := by
  intro ls
  induction ls with
  | nil => intro ch h; simp [List.intercalate] at h
  | cons x xs ih =>
    intro ch h
    cases xs with
    | nil =>
      rw [intercalate_one] at h
      exact Or.inr ⟨x, List.mem_cons_self x [], h⟩
    | cons y ys =>
      rw [intercalate_cons2] at h
      rcases List.mem_append.mp h with h2 | h2
      · exact Or.inr ⟨x, List.mem_cons_self x (y :: ys), h2⟩
      · rcases List.mem_append.mp h2 with h3 | h3
        · simp only [List.mem_singleton] at h3
          exact Or.inl h3
        · rcases ih ch h3 with h4 | ⟨l, hl, hcl⟩
          · exact Or.inl h4
          · exact Or.inr ⟨l, List.mem_cons_of_mem x hl, hcl⟩

theorem makeBoardFen_chars (b : Board) (ch : Char) (h : ch ∈ makeBoardFen b false) :
    ch = '/' ∨ (isStep ch = true ∨ (charToPiece ch).isSome = true) := by
  rw [makeBoardFen] at h
  rcases mem_intercalate_sep '/' _ ch h with h2 | ⟨l, hl, hcl⟩
  · exact Or.inl h2
  · obtain ⟨r, _, rfl⟩ := List.mem_map.mp hl
    exact Or.inr (emitFiles_chars b r 8 0 0 (by omega) ch hcl)

theorem makeBoardFen_no_space (b : Board) : ' ' ∉ makeBoardFen b false := by
  intro hmem
  rcases makeBoardFen_chars b ' ' hmem with h | h
  · exact absurd h (by decide)
  · exact (goodChar_props ' ' h).1 rfl

theorem makeBoardFen_no_lbracket (b : Board) : '[' ∉ makeBoardFen b false := by
  intro hmem
  rcases makeBoardFen_chars b '[' hmem with h | h
  · exact absurd h (by decide)
  · exact (goodChar_props '[' h).2.1 rfl

theorem makeBoardFen_no_rbracket (b : Board) : ']' ∉ makeBoardFen b false := by
  intro hmem
  rcases makeBoardFen_chars b ']' hmem with h | h
  · exact absurd h (by decide)
  · exact (goodChar_props ']' h).2.2.1 rfl

theorem makePockets_chars (m : Material) (ch : Char) (h : ch ∈ makePockets m) :
    (charToPiece ch).isSome = true := by
  rw [makePockets_eq] at h
  simp only [List.mem_append, List.mem_replicate, List.not_mem_nil, or_false] at h
  rcases h with ⟨_, rfl⟩ | ⟨_, rfl⟩ | ⟨_, rfl⟩ | ⟨_, rfl⟩ | ⟨_, rfl⟩ | ⟨_, rfl⟩ |
    ⟨_, rfl⟩ | ⟨_, rfl⟩ | ⟨_, rfl⟩ | ⟨_, rfl⟩ | ⟨_, rfl⟩ | ⟨_, rfl⟩ <;> rfl

theorem makeSquare_no_space : ∀ sq : Square, ' ' ∉ makeSquare sq := by decide

theorem makeSquare_ne_dash : ∀ sq : Square, makeSquare sq ≠ ['-'] := by decide

theorem white_char_ne (c : Char) (h : isWhiteCastlingChar c = true) :
    c ≠ ' ' := by
  rw [isWhiteCastlingChar, contains_iff_mem] at h
  simp only [List.mem_cons, List.not_mem_nil, or_false] at h
  rcases h with rfl | rfl | rfl | rfl | rfl | rfl | rfl | rfl | rfl | rfl <;> decide

theorem black_char_ne (c : Char) (h : isBlackCastlingChar c = true) :
    c ≠ ' ' := by
  rw [isBlackCastlingChar, contains_iff_mem] at h
  simp only [List.mem_cons, List.not_mem_nil, or_false] at h
  rcases h with rfl | rfl | rfl | rfl | rfl | rfl | rfl | rfl | rfl | rfl <;> decide

theorem makeCastlingFen_no_space (b : Board) (uR : SquareSet) :
    ' ' ∉ makeCastlingFen b uR false := by
  intro hmem
  rw [makeCastlingFen_eq] at hmem
  by_cases hnil : ((sortDesc (uR ∩ candidates b .white)).map (charForRook b .white false) ++
      (sortDesc (uR ∩ candidates b .black)).map (charForRook b .black false)) = []
  · rw [if_pos hnil] at hmem
    simp at hmem
  · rw [if_neg hnil] at hmem
    rcases List.mem_append.mp hmem with h2 | h2
    · obtain ⟨x, _, hx⟩ := List.mem_map.mp h2
      exact white_char_ne ' ' (hx ▸ charForRook_white_class b x) rfl
    · obtain ⟨x, _, hx⟩ := List.mem_map.mp h2
      exact black_char_ne ' ' (hx ▸ charForRook_black_class b x) rfl

theorem natToChars_no_plus_mem (n : Nat) : '+' ∉ natToChars n := fun h =>
  absurd (natToChars_digits n '+' h) (by decide)

theorem natToChars_no_space_mem (n : Nat) : ' ' ∉ natToChars n := fun h =>
  absurd (natToChars_digits n ' ' h) (by decide)

theorem makeRemainingChecks_no_space (c : RemainingChecks) :
    ' ' ∉ makeRemainingChecks c := by
  intro hmem
  rw [makeRemainingChecks] at hmem
  rcases List.mem_append.mp hmem with h | h
  · exact natToChars_no_space_mem c.white h
  · rcases List.mem_cons.mp h with h2 | h2
    · exact absurd h2 (by decide)
    · exact natToChars_no_space_mem c.black h2

theorem makeRemainingChecks_contains_plus (c : RemainingChecks) :
    (makeRemainingChecks c).contains '+' = true := by
  rw [contains_iff_mem, makeRemainingChecks]
  exact List.mem_append_right _ (List.mem_cons_self _ _)

theorem natToChars_contains_plus (n : Nat) : (natToChars n).contains '+' = false := by
  rw [← Bool.not_eq_true, contains_iff_mem]
  exact natToChars_no_plus_mem n

theorem parseRemainingChecks_make (c : RemainingChecks) (hw : c.white ≤ 3)
    (hb : c.black ≤ 3) : parseRemainingChecks (makeRemainingChecks c) = .ok c := by
  have hsplit : splitOnChar '+' (makeRemainingChecks c) =
      [natToChars c.white, natToChars c.black] := by
    rw [makeRemainingChecks,
      splitOnChar_append_sep '+' _ _ (natToChars_no_plus_mem c.white),
      splitOnChar_not_mem '+' _ (natToChars_no_plus_mem c.black)]
  rw [parseRemainingChecks]
  simp only [hsplit, parseSmallUint_natToChars c.white (by omega),
    parseSmallUint_natToChars c.black (by omega)]
  rw [if_pos ⟨hw, hb⟩]

theorem turnOf_make (t : Color) : turnOf (some [turnChar t]) = .ok t := by
  cases t <;> rfl

theorem epOf_dash : epOf (some ['-']) = .ok none := rfl

theorem epOf_make (sq : Square) : epOf (some (makeSquare sq)) = .ok (some sq) := by
  rw [epOf, if_pos (makeSquare_ne_dash sq)]
  simp only [parseSquare_makeSquare]

theorem occurrenceIdxs_head_append (c : Char) :
    ∀ (A B : List Char), c ∉ A →
      (occurrenceIdxs (A ++ c :: B) c).head? = some A.length := by
  intro A
  induction A with
  | nil =>
    intro B _
    rw [List.nil_append, occurrenceIdxs, if_pos rfl]
    rfl
  | cons a A ih =>
    intro B hmem
    rw [List.cons_append, occurrenceIdxs,
      if_neg (fun h => hmem (by rw [← h]; exact List.mem_cons_self a A)), List.head?_map,
      ih B (fun h => hmem (List.mem_cons_of_mem a h))]
    rfl

theorem idxOfChar_append (c : Char) (A B : List Char) (h : c ∉ A) :
    idxOfChar (A ++ c :: B) c = some A.length := by
  rw [idxOfChar, occurrenceIdxs_head_append c A B h]

/-! ## C1: assembling the round trip through parseFen -/

theorem parseFenParts_make (bd : Board) (pk : Option Material) (tn : Color)
    (uR : SquareSet) (ep : Option Square) (rc : Option RemainingChecks) (hm fm : Nat)
    (hcast : parseCastlingFen bd (makeCastlingFen bd uR false) = .ok uR)
    (hchecks : ∀ c, rc = some c → c.white ≤ 3 ∧ c.black ≤ 3)
    (hhm : hm ≤ 9999) (hfm1 : 1 ≤ fm) (hfm : fm ≤ 9999) :
    parseFenParts (.ok bd) (.ok pk)
      ([turnChar tn] :: makeCastlingFen bd uR false :: epToken ep ::
        (checksFields rc ++ [natToChars hm, natToChars fm])) =
      .ok ⟨bd, pk, tn, uR, ep, rc, hm, fm⟩ := by
  have hep : epOf (some (epToken ep)) = .ok ep := by
    cases ep with
    | none => exact epOf_dash
    | some sq => exact epOf_make sq
  rw [parseFenParts]
  simp only [List.head?_cons, List.tail_cons, turnOf_make, hep, rooksROf, hcast]
  rw [parseFenFrom4]
  cases rc with
  | none =>
    simp only [checksFields, List.nil_append, parseFenTrip, List.head?_cons,
      List.tail_cons, natToChars_contains_plus, Bool.false_eq_true, if_false]
    rw [parseFenFrom4core]
    simp only [smallUintOr, parseSmallUint_natToChars hm hhm,
      List.head?_cons, List.tail_cons, parseSmallUint_natToChars fm hfm]
    simp only [parseFenFinish, List.head?_nil, List.tail_nil, Option.isSome_none,
      Bool.false_eq_true, false_and, and_false, if_false]
    have hmax : (1 : Nat) ⊔ fm = fm := by
      rw [sup_eq_max]
      exact Nat.max_eq_right hfm1
    rw [hmax, if_neg (not_not_intro rfl)]
  | some c =>
    obtain ⟨hcw, hcb⟩ := hchecks c rfl
    simp only [checksFields, List.cons_append, List.nil_append, parseFenTrip,
      List.head?_cons, List.tail_cons, makeRemainingChecks_contains_plus, if_true]
    rw [parseFenFrom4core]
    simp only [smallUintOr, parseSmallUint_natToChars hm hhm,
      List.head?_cons, List.tail_cons, parseSmallUint_natToChars fm hfm]
    simp only [parseFenFinish, List.head?_nil, List.tail_nil, Option.isSome_none,
      Bool.false_eq_true, false_and, if_false, parseRemainingChecks_make c hcw hcb,
      Except.map]
    have hmax : (1 : Nat) ⊔ fm = fm := by
      rw [sup_eq_max]
      exact Nat.max_eq_right hfm1
    rw [hmax, if_neg (not_not_intro rfl)]

theorem makeFen_eq (bd : Board) (pk : Option Material) (tn : Color) (uR : SquareSet)
    (ep : Option Square) (rc : Option RemainingChecks) (hm fm : Nat) :
    makeFen ⟨bd, pk, tn, uR, ep, rc, hm, fm⟩ ⟨false, false, false⟩ =
      List.intercalate [' ']
        ((makeBoardFen bd false ++ pocketSuffix pk) ::
          [turnChar tn] :: makeCastlingFen bd uR false :: epToken ep ::
          (checksFields rc ++ [natToChars hm, natToChars fm])) := by
  rw [makeFen]
  cases pk <;> cases ep <;> cases rc <;>
    simp [pocketSuffix, epToken, checksFields]

/-- C1 (amended): for a Setup whose board has no promoted pieces, whose
unmovedRooks all sit on matching rook candidates with at most two per
color, with at most one king per color, remaining checks at most 3, and
clocks within the four-digit range (fullmoves at least 1), formatting with
makeFen under the default options and parsing with parseFen returns
exactly the original Setup, field for field. -/
theorem C1_roundtrip_amended (s : Setup)
    (hpromo : ∀ (sq : Square) (p : Piece), s.board sq = some p → p.promoted = false)
    (hinv : ∀ sq ∈ s.unmovedRooks,
      sq ∈ candidates s.board .white ∪ candidates s.board .black)
    (hcardW : (s.unmovedRooks ∩ candidates s.board .white).card ≤ 2)
    (hcardB : (s.unmovedRooks ∩ candidates s.board .black).card ≤ 2)
    (hkingW : ∀ s1 s2 : Square, isColorKing s.board .white s1 = true →
      isColorKing s.board .white s2 = true → s1 = s2)
    (hkingB : ∀ s1 s2 : Square, isColorKing s.board .black s1 = true →
      isColorKing s.board .black s2 = true → s1 = s2)
    (hchecks : ∀ c, s.remainingChecks = some c → c.white ≤ 3 ∧ c.black ≤ 3)
    (hhm : s.halfmoves ≤ 9999) (hfm1 : 1 ≤ s.fullmoves) (hfm : s.fullmoves ≤ 9999) :
    parseFen (makeFen s ⟨false, false, false⟩) = .ok s := by
  obtain ⟨bd, pk, tn, uR, ep, rc, hm, fm⟩ := s
  dsimp only at hpromo hinv hcardW hcardB hkingW hkingB hchecks hhm hfm1 hfm
  have hcast := parseCastlingFen_makeCastlingFen bd uR hinv hcardW hcardB hkingW hkingB
  have hboard := parseBoardFen_makeBoardFen bd hpromo
  have hcount := parseBoardFen_count_slash _ _ hboard
  have hsplit : splitOnChar ' '
      (makeFen ⟨bd, pk, tn, uR, ep, rc, hm, fm⟩ ⟨false, false, false⟩) =
      ((makeBoardFen bd false ++ pocketSuffix pk) ::
        [turnChar tn] :: makeCastlingFen bd uR false :: epToken ep ::
        (checksFields rc ++ [natToChars hm, natToChars fm])) := by
    rw [makeFen_eq]
    apply splitOnChar_intercalate
    · simp
    · intro f hf
      rcases List.mem_cons.mp hf with rfl | hf
      · intro hmem
        rcases List.mem_append.mp hmem with h2 | h2
        · exact makeBoardFen_no_space bd h2
        · cases pk with
          | none => simp [pocketSuffix] at h2
          | some m =>
            rw [pocketSuffix] at h2
            rcases List.mem_cons.mp h2 with h3 | h3
            · exact absurd h3 (by decide)
            · rcases List.mem_append.mp h3 with h4 | h4
              · exact absurd rfl (goodChar_props _ (Or.inr (makePockets_chars m _ h4))).1
              · rcases List.mem_cons.mp h4 with h5 | h5
                · exact absurd h5 (by decide)
                · simp at h5
      rcases List.mem_cons.mp hf with rfl | hf
      · cases tn <;> decide
      rcases List.mem_cons.mp hf with rfl | hf
      · exact makeCastlingFen_no_space bd uR
      rcases List.mem_cons.mp hf with rfl | hf
      · cases ep with
        | none => decide
        | some sq => exact makeSquare_no_space sq
      rcases List.mem_append.mp hf with hf2 | hf2
      · cases rc with
        | none => simp [checksFields] at hf2
        | some c =>
          rw [checksFields] at hf2
          rcases List.mem_cons.mp hf2 with rfl | hf3
          · exact makeRemainingChecks_no_space c
          · simp at hf3
      · rcases List.mem_cons.mp hf2 with rfl | hf3
        · exact natToChars_no_space_mem hm
        · rcases List.mem_cons.mp hf3 with rfl | hf4
          · exact natToChars_no_space_mem fm
          · simp at hf4
  rw [parseFen]
  simp only [hsplit, List.headD_cons, List.tail_cons]
  cases pk with
  | none =>
    simp only [pocketSuffix, List.append_nil]
    rw [if_neg (show ¬((makeBoardFen bd false).getLast? = some ']') from
      fun hcon => makeBoardFen_no_rbracket bd (List.mem_of_mem_getLast? hcon))]
    rw [nthIndexOf_none _ _ 7 (le_of_eq hcount)]
    rw [hboard]
    exact parseFenParts_make bd none tn uR ep rc hm fm hcast hchecks hhm hfm1 hfm
  | some m =>
    simp only [pocketSuffix]
    have hlast : (makeBoardFen bd false ++ ('[' :: (makePockets m ++ [']']))).getLast? =
        some ']' := by
      rw [show makeBoardFen bd false ++ ('[' :: (makePockets m ++ [']'])) =
        (makeBoardFen bd false ++ ('[' :: makePockets m)) ++ [']'] from by simp,
        List.getLast?_concat]
    rw [if_pos hlast]
    simp only [idxOfChar_append '[' _ _ (makeBoardFen_no_lbracket bd)]
    rw [List.take_left]
    have hdrop : (makeBoardFen bd false ++ ('[' :: (makePockets m ++ [']']))).drop
        ((makeBoardFen bd false).length + 1) = makePockets m ++ [']'] := by
      rw [show makeBoardFen bd false ++ ('[' :: (makePockets m ++ [']'])) =
        (makeBoardFen bd false ++ ['[']) ++ (makePockets m ++ [']']) from by simp,
        show (makeBoardFen bd false).length + 1 =
          (makeBoardFen bd false ++ ['[']).length from by simp,
        List.drop_left]
    rw [hdrop]
    have harith : (makeBoardFen bd false ++ ('[' :: (makePockets m ++ [']']))).length -
        1 - (makeBoardFen bd false).length - 1 = (makePockets m).length := by
      simp only [List.length_append, List.length_cons, List.length_nil,
        List.length_singleton]
      omega
    rw [harith, List.take_left, parsePockets_makePockets m]
    rw [hboard]
    exact parseFenParts_make bd (some m) tn uR ep rc hm fm hcast hchecks hhm hfm1 hfm

/-- C1 witness: the empty Setup with white to move round-trips through
makeFen and parseFen under the default options. -/
theorem C1_roundtrip_amended_witness :
    parseFen (makeFen emptySetupFull1 ⟨false, false, false⟩) = .ok emptySetupFull1 :=
  C1_roundtrip_amended emptySetupFull1
    (fun _ _ h => Option.noConfusion h)
    (fun sq h => absurd h (Finset.not_mem_empty sq))
    (by decide) (by decide) (by decide) (by decide)
    (fun _ h => Option.noConfusion h)
    (by decide) (by decide) (by decide)

/-- C1 counterexample: the starting position with the white queen marked
promoted is a valid Setup (per the spec's validation steps, modelled in
ValidSetupB), yet makeFen under the default options drops the promotion
flag, so parseFen of the formatted text does not return the original
Setup: the round trip loses the board's promoted field. -/
theorem C1_roundtrip_counterexample :
    ValidSetupB exSetup = true ∧
      parseFen (makeFen exSetup ⟨false, false, false⟩) ≠ .ok exSetup := by
  constructor
  · decide
  · decide

/-! ## C9: omitted trailing fields of any prefix take defaults -/

theorem epToken_no_space (ep : Option Square) : ' ' ∉ epToken ep := by
  cases ep with
  | none => decide
  | some sq => exact makeSquare_no_space sq

theorem splitOnChar_cons_sep (sep c : Char) (h : c ≠ sep) (B : List Char) :
    splitOnChar sep (c :: sep :: B) = [c] :: splitOnChar sep B := by
  have h2 := splitOnChar_append_sep sep [c] B
    (by simp only [List.mem_singleton]; exact fun he => h he.symm)
  simpa using h2

theorem parseFen_board_only (bp : List Char) (b : Board)
    (hok : parseBoardFen bp = .ok b) :
    parseFen bp = parseFenParts (.ok b) (.ok none) [] := by
  have hchars := parseBoardFen_chars bp b hok
  have hnosp : ' ' ∉ bp := fun hmem => (boardChar_props _ (hchars _ hmem)).2.1 rfl
  have hlast : ¬(bp.getLast? = some ']') := by
    intro hcon
    exact (boardChar_props ']' (hchars ']' (List.mem_of_mem_getLast? (by
      rw [hcon]; rfl)))).1 rfl
  have hnth : nthIndexOf bp '/' 7 = none :=
    nthIndexOf_none bp '/' 7 (le_of_eq (parseBoardFen_count_slash bp b hok))
  rw [parseFen, splitOnChar_not_mem ' ' bp hnosp]
  simp only [List.headD_cons, List.tail_cons]
  rw [if_neg hlast, hnth, hok]

theorem parseFen_board_rest (bp : List Char) (b : Board)
    (hok : parseBoardFen bp = .ok b) (rest : List Char) :
    parseFen (bp ++ ' ' :: rest) =
      parseFenParts (.ok b) (.ok none) (splitOnChar ' ' rest) := by
  have hchars := parseBoardFen_chars bp b hok
  have hnosp : ' ' ∉ bp := fun hmem => (boardChar_props _ (hchars _ hmem)).2.1 rfl
  have hlast : ¬(bp.getLast? = some ']') := by
    intro hcon
    exact (boardChar_props ']' (hchars ']' (List.mem_of_mem_getLast? (by
      rw [hcon]; rfl)))).1 rfl
  have hnth : nthIndexOf bp '/' 7 = none :=
    nthIndexOf_none bp '/' 7 (le_of_eq (parseBoardFen_count_slash bp b hok))
  rw [parseFen, splitOnChar_append_sep ' ' bp rest hnosp]
  simp only [List.headD_cons, List.tail_cons]
  rw [if_neg hlast, hnth, hok]

theorem parseFenParts_prefix (b : Board) (t : Color) (cp : List Char)
    (rooks : SquareSet) (hcp : parseCastlingFen b cp = .ok rooks)
    (ep : Option Square) (hm fm : Nat) (hhm : hm ≤ 9999) (hfm : fm ≤ 9999) :
    parseFenParts (.ok b) (.ok none) [] =
      .ok ⟨b, none, .white, ∅, none, none, 0, 1⟩ ∧
    parseFenParts (.ok b) (.ok none) [[turnChar t]] =
      .ok ⟨b, none, t, ∅, none, none, 0, 1⟩ ∧
    parseFenParts (.ok b) (.ok none) [[turnChar t], cp] =
      .ok ⟨b, none, t, rooks, none, none, 0, 1⟩ ∧
    parseFenParts (.ok b) (.ok none) [[turnChar t], cp, epToken ep] =
      .ok ⟨b, none, t, rooks, ep, none, 0, 1⟩ ∧
    parseFenParts (.ok b) (.ok none) [[turnChar t], cp, epToken ep, natToChars hm] =
      .ok ⟨b, none, t, rooks, ep, none, hm, 1⟩ ∧
    parseFenParts (.ok b) (.ok none)
        [[turnChar t], cp, epToken ep, natToChars hm, natToChars fm] =
      .ok ⟨b, none, t, rooks, ep, none, hm, max 1 fm⟩ := by
  have hep : epOf (some (epToken ep)) = .ok ep := by
    cases ep with
    | none => exact epOf_dash
    | some sq => exact epOf_make sq
  refine ⟨?_, ?_, ?_, ?_, ?_, ?_⟩
  · simp [parseFenParts, turnOf, epOf, rooksROf, parseFenFrom4, parseFenTrip,
      parseFenFrom4core, smallUintOr, parseFenFinish]
  · simp [parseFenParts, turnOf_make, epOf, rooksROf, parseFenFrom4, parseFenTrip,
      parseFenFrom4core, smallUintOr, parseFenFinish]
  · simp [parseFenParts, turnOf_make, epOf, rooksROf, hcp, parseFenFrom4,
      parseFenTrip, parseFenFrom4core, smallUintOr, parseFenFinish]
  · simp [parseFenParts, turnOf_make, hep, rooksROf, hcp, parseFenFrom4,
      parseFenTrip, parseFenFrom4core, smallUintOr, parseFenFinish]
  · simp [parseFenParts, turnOf_make, hep, rooksROf, hcp, parseFenFrom4,
      parseFenTrip, natToChars_contains_plus, natToChars_no_plus_mem hm,
      parseFenFrom4core, smallUintOr, parseSmallUint_natToChars hm hhm,
      parseFenFinish]
  · simp only [parseFenParts, List.head?_cons, List.tail_cons, turnOf_make, hep,
      rooksROf, hcp, parseFenFrom4, parseFenTrip, natToChars_contains_plus,
      Bool.false_eq_true, if_false, parseFenFrom4core, smallUintOr,
      parseSmallUint_natToChars hm hhm, parseSmallUint_natToChars fm hfm,
      parseFenFinish, List.head?_nil, List.tail_nil, Option.isSome_none,
      false_and, and_false]
    rfl

/-- C9: parseFen accepts any prefix of the space-separated field list —
the board part alone, or continuing through the turn, castling, en
passant, halfmove and fullmove fields — and every omitted trailing field
takes its documented default: white to move, no castling rights, no en
passant square, no remaining checks, halfmoves 0 and fullmoves 1 (with a
present fullmove field clamped to at least 1). -/
theorem C9_trailing_fields_default :
    ∀ (bp : List Char) (b : Board), parseBoardFen bp = .ok b →
    ∀ (t : Color) (cp : List Char) (rooks : SquareSet), ' ' ∉ cp →
      parseCastlingFen b cp = .ok rooks →
    ∀ (ep : Option Square) (hm fm : Nat), hm ≤ 9999 → fm ≤ 9999 →
      parseFen bp = .ok ⟨b, none, .white, ∅, none, none, 0, 1⟩ ∧
      parseFen (bp ++ ' ' :: [turnChar t]) =
        .ok ⟨b, none, t, ∅, none, none, 0, 1⟩ ∧
      parseFen (bp ++ ' ' :: [turnChar t] ++ ' ' :: cp) =
        .ok ⟨b, none, t, rooks, none, none, 0, 1⟩ ∧
      parseFen (bp ++ ' ' :: [turnChar t] ++ ' ' :: cp ++ ' ' :: epToken ep) =
        .ok ⟨b, none, t, rooks, ep, none, 0, 1⟩ ∧
      parseFen (bp ++ ' ' :: [turnChar t] ++ ' ' :: cp ++ ' ' :: epToken ep ++
          ' ' :: natToChars hm) =
        .ok ⟨b, none, t, rooks, ep, none, hm, 1⟩ ∧
      parseFen (bp ++ ' ' :: [turnChar t] ++ ' ' :: cp ++ ' ' :: epToken ep ++
          ' ' :: natToChars hm ++ ' ' :: natToChars fm) =
        .ok ⟨b, none, t, rooks, ep, none, hm, max 1 fm⟩ := by
  intro bp b hok t cp rooks hcpns hcp ep hm fm hhm hfm
  have hturnns : ' ' ∉ [turnChar t] := by cases t <;> decide
  have htcne : turnChar t ≠ ' ' := by cases t <;> decide
  have hprefix := parseFenParts_prefix b t cp rooks hcp ep hm fm hhm hfm
  refine ⟨?_, ?_, ?_, ?_, ?_, ?_⟩
  · rw [parseFen_board_only bp b hok]
    exact hprefix.1
  · rw [parseFen_board_rest bp b hok,
      splitOnChar_not_mem ' ' [turnChar t] hturnns]
    exact hprefix.2.1
  · simp only [List.append_assoc, List.cons_append, List.nil_append]
    rw [parseFen_board_rest bp b hok,
      splitOnChar_cons_sep ' ' (turnChar t) htcne,
      splitOnChar_not_mem ' ' cp hcpns]
    exact hprefix.2.2.1
  · simp only [List.append_assoc, List.cons_append, List.nil_append]
    rw [parseFen_board_rest bp b hok,
      splitOnChar_cons_sep ' ' (turnChar t) htcne,
      splitOnChar_append_sep ' ' cp _ hcpns,
      splitOnChar_not_mem ' ' (epToken ep) (epToken_no_space ep)]
    exact hprefix.2.2.2.1
  · simp only [List.append_assoc, List.cons_append, List.nil_append]
    rw [parseFen_board_rest bp b hok,
      splitOnChar_cons_sep ' ' (turnChar t) htcne,
      splitOnChar_append_sep ' ' cp _ hcpns,
      splitOnChar_append_sep ' ' (epToken ep) _ (epToken_no_space ep),
      splitOnChar_not_mem ' ' (natToChars hm) (natToChars_no_space_mem hm)]
    exact hprefix.2.2.2.2.1
  · simp only [List.append_assoc, List.cons_append, List.nil_append]
    rw [parseFen_board_rest bp b hok,
      splitOnChar_cons_sep ' ' (turnChar t) htcne,
      splitOnChar_append_sep ' ' cp _ hcpns,
      splitOnChar_append_sep ' ' (epToken ep) _ (epToken_no_space ep),
      splitOnChar_append_sep ' ' (natToChars hm) _ (natToChars_no_space_mem hm),
      splitOnChar_not_mem ' ' (natToChars fm) (natToChars_no_space_mem fm)]
    exact hprefix.2.2.2.2.2

/-- Witness for C9: the empty board part, extended field by field (black
to move, no castling rights, en passant a1, halfmoves 5, fullmoves 0),
parses at every prefix with the omitted trailing fields defaulted, and
the present fullmove field 0 is clamped to 1. -/
theorem C9_trailing_fields_default_witness :
    parseFen emptyBoardOnly =
      .ok ⟨Board.emptyB, none, .white, ∅, none, none, 0, 1⟩ ∧
    parseFen (emptyBoardOnly ++ ' ' :: [turnChar .black]) =
      .ok ⟨Board.emptyB, none, .black, ∅, none, none, 0, 1⟩ ∧
    parseFen (emptyBoardOnly ++ ' ' :: [turnChar .black] ++ ' ' :: ['-']) =
      .ok ⟨Board.emptyB, none, .black, ∅, none, none, 0, 1⟩ ∧
    parseFen (emptyBoardOnly ++ ' ' :: [turnChar .black] ++ ' ' :: ['-'] ++
        ' ' :: epToken (some sq0)) =
      .ok ⟨Board.emptyB, none, .black, ∅, some sq0, none, 0, 1⟩ ∧
    parseFen (emptyBoardOnly ++ ' ' :: [turnChar .black] ++ ' ' :: ['-'] ++
        ' ' :: epToken (some sq0) ++ ' ' :: natToChars 5) =
      .ok ⟨Board.emptyB, none, .black, ∅, some sq0, none, 5, 1⟩ ∧
    parseFen (emptyBoardOnly ++ ' ' :: [turnChar .black] ++ ' ' :: ['-'] ++
        ' ' :: epToken (some sq0) ++ ' ' :: natToChars 5 ++ ' ' :: natToChars 0) =
      .ok ⟨Board.emptyB, none, .black, ∅, some sq0, none, 5, max 1 0⟩ :=
  C9_trailing_fields_default emptyBoardOnly Board.emptyB (by decide) .black ['-'] ∅
    (by decide) (by decide) (some sq0) 5 0 (by decide) (by decide)

end Chessops
